import Mathlib

/-!
Shallow embedding of the ChronoSweep folder-cleaner core
(`src/folder_cleaner/service.py` and the duration parsers of
`src/folder_cleaner/config.py`), together with theorems settling the
frozen claims about the program.

Modelling conventions:
* instants and durations are integers counting seconds (`timedelta`
  resolution-exact for the whole-second values the program manipulates);
  a calendar date is an integer counting days, `date()` of an instant is
  floor division by 86400 and `datetime.combine(d, time.min)` is `d * 86400`;
* filesystem paths are lists of components; a `PurePath` additionally
  records whether the textual path was absolute (Python `Path.is_absolute`);
* the filesystem is a list of entries (path, last-modified instant,
  directory flag); `os.walk` enumerates the strict descendants of a root;
* `re.match` is embedded by `rmatch`, a matcher for the anchored pattern
  subset the rules use (literal characters, `.`, postfix `*`, an optional
  leading `^`); `re.match` anchors at the start of the string, so a
  leading `^` is redundant and is stripped;
* `datetime.now()` inside disposal (used only for collision timestamps and
  the modification time of freshly created trash directories) is passed in
  as an explicit `now` parameter, and the `FOLDERCLEANER_SYSTEM_TRASH_OVERRIDE`
  environment lookup is resolved at the boundary into the `sysTrash` field
  of the service, as the code reads it only there.
-/

namespace ChronoSweep

/-! ### Paths -/

/-- A `pathlib.PurePath`: whether the path is absolute, and its components
(excluding the root marker). -/
structure PurePath where
  isRoot : Bool
  comps : List String
deriving DecidableEq, Repr

/-- `Path.name`: the final component, `""` when there is none. -/
def pname (p : PurePath) : String := p.comps.getLastD ""

/-- Absolute filesystem paths, as component lists. -/
abbrev AbsPath := List String

/-- Paths relative to a rule root (`Path.relative_to`), as component lists. -/
abbrev RelPath := List String

/-- Base name of a relative path (its final component). -/
def relName (rel : RelPath) : String := rel.getLastD ""

/-- `p` is a component-wise prefix of `q` (equality allowed). -/
def leads (p q : List String) : Prop := q.take p.length = p

instance (p q : List String) : Decidable (leads p q) :=
  inferInstanceAs (Decidable (q.take p.length = p))

/-- `p` is a strict descendant of `root`. -/
def strictUnder (root p : AbsPath) : Prop := leads root p ∧ p ≠ root

instance (root p : AbsPath) : Decidable (strictUnder root p) := instDecidableAnd

/-- Neither path is a component-wise prefix of the other. -/
def incomparable (p q : List String) : Prop := ¬ leads p q ∧ ¬ leads q p

instance (p q : List String) : Decidable (incomparable p q) := instDecidableAnd

/-! ### The `re.match` embedding -/

/-- Anchored matcher for the regex subset used by the rules: literal
characters, `.` (any character), a postfix `*` on the previous atom.
It holds when the pattern matches some prefix of `s` starting at position
0, which is exactly `re.match` semantics.  The recursion is indexed by a
fuel so that it is structural (and hence kernel-computable); every
recursive call strictly decreases `p.length + s.length`, so any fuel above
that sum gives the fixpoint (`rmatchF_congr` below). -/
def rmatchF : Nat → List Char → List Char → Bool
  | 0, _, _ => false
  | fuel + 1, p, s =>
    match p, s with
    | [], _ => true
    | [_], [] => false
    | [c], x :: xs => (c == '.' || c == x) && rmatchF fuel [] xs
    | c :: c2 :: ps, s =>
      if c2 == '*' then
        rmatchF fuel ps s ||
          (match s with
           | [] => false
           | x :: xs => (c == '.' || c == x) && rmatchF fuel (c :: c2 :: ps) xs)
      else
        match s with
        | [] => false
        | x :: xs => (c == '.' || c == x) && rmatchF fuel (c2 :: ps) xs

/-- The matcher at an always-adequate fuel. -/
def rmatch (p s : List Char) : Bool := rmatchF (p.length + s.length + 1) p s

/-- `re.match(pattern, s)`: `^` anchors at position 0 where `match` already
starts, so a leading `^` is stripped. -/
def reMatch (pattern s : String) : Bool :=
  let ps := pattern.toList
  let ps := match ps with
    | '^' :: rest => rest
    | other => other
  rmatch ps s.toList

/-! ### Rule model -/

/-- `PatternRule`: a per-filename-pattern override. Retention and the
notify-before lead-times are durations in seconds; `action` is one of
`"delete"`, `"trash"`, `"system_trash"`. -/
structure PatternRule where
  pattern : String
  retention : Int
  notifyBefore : List Int
  action : String
deriving DecidableEq, Repr

/-- `FolderRule`: a folder-level rule. Exemptions are the `Path(exemption)`
values that `_is_exempt` builds from the configured strings. -/
structure FolderRule where
  path : AbsPath
  retention : Int
  notifyBefore : List Int
  exemptions : List PurePath
  action : String
  patterns : List PatternRule
deriving DecidableEq, Repr

/-- The shared first-match loop of `_effective_policy` / `_effective_notify`:
the first pattern rule (in declared order) whose regex `re.match`es the base
name. -/
def findPattern (pats : List PatternRule) (name : String) : Option PatternRule :=
  match pats with
  | [] => none
  | pr :: rest => if reMatch pr.pattern name then some pr else findPattern rest name

/-- `FolderCleanerService._effective_policy`. -/
def effectivePolicy (rule : FolderRule) (rel : RelPath) : Int × String :=
  match findPattern rule.patterns (relName rel) with
  | some pr => (pr.retention, pr.action)
  | none => (rule.retention, rule.action)

/-- `FolderCleanerService._effective_notify`. -/
def effectiveNotify (rule : FolderRule) (rel : RelPath) : List Int :=
  match findPattern rule.patterns (relName rel) with
  | some pr => pr.notifyBefore
  | none => rule.notifyBefore

/-- One iteration of the `_is_exempt` loop, for a single exemption path.
For an absolute exemption only the exact-equality test runs (the loop
`continue`s past the other two); for a relative exemption the component-wise
prefix test and then the base-name test run. -/
def exemptMatches (rel : RelPath) (ex : PurePath) : Bool :=
  if ex.isRoot then
    decide (PurePath.mk false rel = ex)
  else
    (decide (ex.comps.length ≤ rel.length) && decide (rel.take ex.comps.length = ex.comps))
      || (decide (pname ex ≠ "") && decide (pname ex = relName rel))

/-- `FolderCleanerService._is_exempt`. -/
def isExempt (rule : FolderRule) (rel : RelPath) : Bool :=
  rule.exemptions.any (exemptMatches rel)

/-! ### Time arithmetic -/

/-- `datetime.date()` of an instant: days since the epoch, floor division. -/
def dateOf (t : Int) : Int := Int.fdiv t 86400

/-- `datetime.combine(d, time.min)`: midnight of a date, as an instant. -/
def midnight (d : Int) : Int := d * 86400

/-- `math.ceil(secs / 86400)` for an exact number of seconds. -/
def ceilDays (secs : Int) : Int := -(Int.fdiv (-secs) 86400)

/-! ### Duration parsing (`config._parse_duration` and `service._parse_offset`)

Inputs are dynamically typed in the source; `PyVal` covers the cases the
`isinstance` chains distinguish.  A Python `bool` is a numeric subtype, so
in `isinstance(value, (int, float))` a boolean falls into the numeric
branch unless excluded first; `PyVal.boolean` is kept as its own
constructor and each parser decides explicitly what to do with it,
mirroring the `isinstance` dispatch order of the source.  Numbers are
restricted to integers (the claims are about integer inputs). -/

inductive PyVal where
  | td (seconds : Int)
  | boolean (b : Bool)
  | int (n : Int)
  | str (s : String)
deriving DecidableEq, Repr

/-- Value of an ASCII digit string. -/
def digitsVal (cs : List Char) : Nat :=
  cs.foldl (fun a c => 10 * a + (c.toNat - 48)) 0

/-- The regex alternation of both parsers applied to the normalized text:
`^(\d+)([hdwy])$` first, then `^(\d+)$` (whose unit defaults to days).
Returns the amount and the unit character on success. -/
def matchDuration (text : String) : Option (Nat × Char) :=
  let cs := text.toList
  match cs.getLast? with
  | none => none
  | some c =>
    if c = 'h' ∨ c = 'd' ∨ c = 'w' ∨ c = 'y' then
      let ds := cs.dropLast
      if ds ≠ [] ∧ ds.all (·.isDigit) then some (digitsVal ds, c) else none
    else
      if cs.all (·.isDigit) then some (digitsVal cs, 'd') else none

/-- Seconds for `amount` of the given unit (`h`, `d`, `w`, `y`, with
`y = 365` days, not calendar-aware). -/
def unitSeconds (amount : Nat) (unit : Char) : Int :=
  if unit = 'h' then amount * 3600
  else if unit = 'd' then amount * 86400
  else if unit = 'w' then amount * 604800
  else amount * 31536000

/-- `value.strip().lower()` as both parsers normalize their string input
(ASCII, which covers the duration alphabet).  Implemented over the
character list because Lean's `String.trim` / `String.toLower` use
position-indexed auxiliaries the kernel cannot evaluate. -/
def normText (s : String) : String :=
  (((s.toList.dropWhile Char.isWhitespace).reverse.dropWhile
      Char.isWhitespace).reverse.map Char.toLower).asString

/-- The shared string branch of both parsers. -/
def parseDurationText (s : String) (err : String) : Except String Int :=
  match matchDuration (normText s) with
  | some (amount, unit) => Except.ok (unitSeconds amount unit)
  | none => Except.error err

/-- `service._parse_offset`: timedeltas and numbers are checked for
negativity, booleans are rejected outright before the numeric branch,
strings go through the regex alternation. -/
def parseOffset : PyVal → Except String Int
  | .td s => if s < 0 then Except.error "notify_before values must be >= 0" else Except.ok s
  | .boolean _ => Except.error "notify_before values must be >= 0"
  | .int n =>
    if n < 0 then Except.error "notify_before values must be >= 0"
    else Except.ok (n * 86400)
  | .str s => parseDurationText s "notify_before string must look like '5d', '12h', or '1y'"

/-- `config._parse_duration`: timedeltas pass through unchecked; the
`isinstance(value, (int, float))` branch converts the number to days with
no sign check, and — booleans being numeric subtypes — also converts
booleans (`True` is `1`); strings go through the regex alternation. -/
def parseDuration : PyVal → Except String Int
  | .td s => Except.ok s
  | .boolean b => Except.ok (if b then 86400 else 0)
  | .int n => Except.ok (n * 86400)
  | .str s => parseDurationText s "retention_time must be like '5d', '12h', '1y'"

/-! ### Filesystem model -/

/-- A live filesystem object: absolute path, last-modified instant
(`st_mtime`), and whether it is a directory. -/
structure FSEntry where
  path : AbsPath
  mtime : Int
  isDir : Bool
deriving DecidableEq, Repr

/-- The filesystem: the list of its objects. -/
structure FS where
  entries : List FSEntry
deriving DecidableEq, Repr

/-- `path.exists()`. -/
def pathExists (fs : FS) (p : AbsPath) : Bool :=
  fs.entries.any (fun e => decide (e.path = p))

/-- `path.is_dir()`. -/
def isDirAt (fs : FS) (p : AbsPath) : Bool :=
  fs.entries.any (fun e => decide (e.path = p) && e.isDir)

/-- The guard `rule.path.exists() and rule.path.is_dir()`; a rule failing it
contributes nothing. -/
def ruleActive (fs : FS) (rule : FolderRule) : Bool :=
  pathExists fs rule.path && isDirAt fs rule.path

/-- `_iter_rule_entries`: every file and directory strictly below the root. -/
def entriesUnder (fs : FS) (root : AbsPath) : List FSEntry :=
  fs.entries.filter (fun e => decide (strictUnder root e.path))

/-- `absolute_path.relative_to(rule.path)`. -/
def relOf (root : AbsPath) (p : AbsPath) : RelPath := p.drop root.length

/-- `_collect_entries`: (absolute path, relative path, modified instant). -/
def collect (fs : FS) (rule : FolderRule) : List (AbsPath × RelPath × Int) :=
  (entriesUnder fs rule.path).map (fun e => (e.path, relOf rule.path e.path, e.mtime))

/-! ### Disposal strategies -/

/-- `_remove_path` (and the removal half of `shutil.move`): `shutil.rmtree`
on a directory removes the whole subtree, `unlink` on a file removes just
it; uniformly, everything at or below `p` disappears. -/
def removeSubtree (fs : FS) (p : AbsPath) : FS :=
  ⟨fs.entries.filter (fun e => ! decide (leads p e.path))⟩

/-- The collision suffix `datetime.now().strftime("%Y%m%d%H%M%S")`,
abstracted to a rendering of the `now` instant (all the code needs of it is
that it is a non-empty string). -/
def tsName (now : Int) : String := toString now

/-- `dir.mkdir(parents=True, exist_ok=True)`: create `dir` and every
missing ancestor, as directories stamped with the creation instant. -/
def mkdirs (fs : FS) (now : Int) (dir : AbsPath) : FS :=
  ⟨fs.entries ++
    (List.range dir.length).filterMap (fun i =>
      if pathExists fs (dir.take (i + 1)) then none
      else some (FSEntry.mk (dir.take (i + 1)) now true))⟩

/-- The relocation half of `shutil.move`: everything at or below `src` is
re-rooted below `dst`, keeping its modification time. -/
def subtreeMove (fs : FS) (src dst : AbsPath) : FS :=
  ⟨fs.entries.map (fun e =>
    if leads src e.path then { e with path := dst ++ e.path.drop src.length } else e)⟩

/-- The shared trash-move of `_move_to_trash` / `_move_to_system_trash`:
target is `trashRoot / rule.path.name / relative_path`; parents are created
first; a timestamp suffix is appended if the target already exists; the
source subtree is moved there and the final target returned. -/
def moveToTrash (fs : FS) (now : Int) (trashRoot : AbsPath) (rule : FolderRule)
    (src : AbsPath) (rel : RelPath) : FS × AbsPath :=
  let base := trashRoot ++ [rule.path.getLastD ""] ++ rel
  let fs1 := mkdirs fs now base.dropLast
  let target :=
    if pathExists fs1 base then base.dropLast ++ [base.getLastD "" ++ "__" ++ tsName now]
    else base
  (subtreeMove fs1 src target, target)

/-- The collision-free trash target before suffixing:
`trashRoot / rule.path.name / relative_path`. -/
def trashBase (trashRoot : AbsPath) (rule : FolderRule) (rel : RelPath) : AbsPath :=
  trashRoot ++ [rule.path.getLastD ""] ++ rel

/-- The timestamp-suffixed variant of a target. -/
def stamped (base : AbsPath) (now : Int) : AbsPath :=
  base.dropLast ++ [base.getLastD "" ++ "__" ++ tsName now]

/-- The service: the rule list, the optional managed trash root, and the
system-trash root (the `FOLDERCLEANER_SYSTEM_TRASH_OVERRIDE` environment
override or `~/.Trash`, resolved at the boundary). -/
structure Service where
  rules : List FolderRule
  trashDir : Option AbsPath
  sysTrash : AbsPath
deriving DecidableEq, Repr

/-- Action dispatch of the `cleanup` loop body: `"trash"` moves to the
managed trash (falling back to deletion when none is configured),
`"system_trash"` moves to the system trash (its exception fallback is
unreachable here because the model has no filesystem failures), anything
else permanently deletes.  Returns the new state and the recorded path. -/
def dispose (svc : Service) (rule : FolderRule) (now : Int) (fs : FS)
    (src : AbsPath) (rel : RelPath) (action : String) : FS × AbsPath :=
  if action = "trash" then
    match svc.trashDir with
    | none => (removeSubtree fs src, src)
    | some td => moveToTrash fs now td rule src rel
  else if action = "system_trash" then
    moveToTrash fs now svc.sysTrash rule src rel
  else
    (removeSubtree fs src, src)

/-! ### Sorting

`list.sort(key=..., reverse=True)` and `sorted(..., key=...)` are embedded
as an insertion sort over a boolean "comes no later than" relation; the
claims constrain only sortedness and multiset contents, not tie order. -/

/-- Insert `x` into `l`, before the first element it must precede. -/
def insertB (le : α → α → Bool) (x : α) : List α → List α
  | [] => [x]
  | y :: ys => if le x y then x :: y :: ys else y :: insertB le x ys

/-- Insertion sort by `le`. -/
def sortByB (le : α → α → Bool) : List α → List α
  | [] => []
  | x :: xs => insertB le x (sortByB le xs)

/-- The `cleanup` sort key: deeper relative paths (more components) first. -/
def depthGe (a b : AbsPath × RelPath × Int) : Bool :=
  decide (b.2.1.length ≤ a.2.1.length)

/-! ### The cleanup engine -/

/-- `age >= effective_retention` combined with the exemption skip:
exactly the entries the loop body disposes. -/
def shouldDispose (rule : FolderRule) (asOf : Int) (t : AbsPath × RelPath × Int) : Bool :=
  ! isExempt rule t.2.1 && decide ((effectivePolicy rule t.2.1).1 ≤ asOf - t.2.2)

/-- The per-entry loop of `cleanup` over the (already sorted) entry list:
skip exempt entries, dispose stale ones, record the resulting paths in
processing order. -/
def runEntries (svc : Service) (rule : FolderRule) (asOf now : Int) :
    FS → List (AbsPath × RelPath × Int) → FS × List AbsPath
  | fs, [] => (fs, [])
  | fs, (src, rel, m) :: rest =>
    if isExempt rule rel then runEntries svc rule asOf now fs rest
    else if (effectivePolicy rule rel).1 ≤ asOf - m then
      let step := dispose svc rule now fs src rel (effectivePolicy rule rel).2
      let next := runEntries svc rule asOf now step.1 rest
      (next.1, step.2 :: next.2)
    else runEntries svc rule asOf now fs rest

/-- One rule's share of `cleanup`: skip inactive roots, otherwise collect,
sort deepest-first, and run the disposal loop. -/
def cleanupRule (svc : Service) (rule : FolderRule) (asOf now : Int) (fs : FS) :
    FS × List AbsPath :=
  if ruleActive fs rule then
    runEntries svc rule asOf now fs (sortByB depthGe (collect fs rule))
  else (fs, [])

/-- The rule loop of `cleanup`, threading the filesystem. -/
def cleanupRules (svc : Service) (asOf now : Int) : FS → List FolderRule → FS × List AbsPath
  | fs, [] => (fs, [])
  | fs, r :: rs =>
    let step := cleanupRule svc r asOf now fs
    let next := cleanupRules svc asOf now step.1 rs
    (next.1, step.2 ++ next.2)

/-- `FolderCleanerService.cleanup`: returns the final filesystem and the
list of removed/relocated paths. -/
def cleanup (svc : Service) (asOf now : Int) (fs : FS) : FS × List AbsPath :=
  cleanupRules svc asOf now fs svc.rules

/-! ### The alert scheduler -/

/-- The alert record: folder path, relative file paths (sorted), alert date,
days until deletion. -/
structure Alert where
  folder : AbsPath
  files : List RelPath
  alertDate : Int
  daysUntilDeletion : Int
deriving DecidableEq, Repr

/-- A registration event of the `upcoming_alerts` loop:
`(alert date, rule path, relative path, due date)`, appended to
`schedule[alert_date][rule.path]` in iteration order. -/
abbrev Reg := Int × AbsPath × RelPath × Int

/-- What each folder group accumulates: `(relative_path, due_dt.date())`. -/
abbrev FileDue := RelPath × Int

/-- One rule's registration events of the `upcoming_alerts` loop, in
iteration order: per non-exempt entry with `due_dt >= as_of_dt`, per
lead-time whose alert date falls inside the inclusive window
`[asOfDate, endDate]`; an inactive rule contributes nothing. -/
def ruleRegs (asOf asOfDate endDate : Int) (fs : FS) (rule : FolderRule) : List Reg :=
  if ruleActive fs rule then
    (entriesUnder fs rule.path).flatMap fun e =>
      let rel := relOf rule.path e.path
      if isExempt rule rel then []
      else
        let due := e.mtime + (effectivePolicy rule rel).1
        if due < asOf then []
        else
          (effectiveNotify rule rel).filterMap fun offset =>
            let ad := dateOf (due - offset)
            if ad < asOfDate ∨ endDate < ad then none
            else some (ad, rule.path, rel, dateOf due)
  else []

/-- The flattened sequence of registration events of `upcoming_alerts`
across the rules, with `end_date = as_of_date + timedelta(days=window_days)`. -/
def registrations (svc : Service) (asOf windowDays : Int) (fs : FS) : List Reg :=
  svc.rules.flatMap (ruleRegs asOf (dateOf asOf) (dateOf asOf + windowDays) fs)

/-- `schedule.setdefault(alert_date, {}).setdefault(rule.path, []).append(..)`
at the folder level of the nested insertion-ordered dictionaries. -/
def insertFolder (folders : List (AbsPath × List FileDue)) (f : AbsPath) (x : FileDue) :
    List (AbsPath × List FileDue) :=
  match folders with
  | [] => [(f, [x])]
  | (g, xs) :: rest =>
    if g = f then (g, xs ++ [x]) :: rest else (g, xs) :: insertFolder rest f x

/-- One registration event applied to the nested schedule dictionary. -/
def insertReg (sch : List (Int × List (AbsPath × List FileDue))) (r : Reg) :
    List (Int × List (AbsPath × List FileDue)) :=
  match sch with
  | [] => [(r.1, [(r.2.1, [(r.2.2.1, r.2.2.2)])])]
  | (d, folders) :: rest =>
    if d = r.1 then (d, insertFolder folders r.2.1 (r.2.2.1, r.2.2.2)) :: rest
    else (d, folders) :: insertReg rest r

/-- The schedule dictionary after all registration events. -/
def buildSchedule (rs : List Reg) : List (Int × List (AbsPath × List FileDue)) :=
  rs.foldl insertReg []

/-- `Path.as_posix()` of a relative path. -/
def posix (r : RelPath) : String := String.intercalate "/" r

/-- Code-point lexicographic order on strings, as Python `str` comparison
sorts the `as_posix` keys. -/
def charListLe : List Char → List Char → Bool
  | [], _ => true
  | _ :: _, [] => false
  | a :: as, b :: bs => if a = b then charListLe as bs else decide (a < b)

/-- The sort key comparison of `sorted(entries, key=lambda item: item[0].as_posix())`. -/
def fdLe (a b : FileDue) : Bool := charListLe (posix a.1).toList (posix b.1).toList

/-- `math.ceil((datetime.combine(due, time.min) - as_of_dt).total_seconds() / 86400)`. -/
def dayCount (asOf : Int) (fd : FileDue) : Int := ceilDays (midnight fd.2 - asOf)

/-- `min(...)` of the ceiling day counts over a folder group. -/
def minDays (asOf : Int) : List FileDue → Int
  | [] => 0
  | x :: xs => xs.foldl (fun acc fd => min acc (dayCount asOf fd)) (dayCount asOf x)

/-- Build one `Alert` from a `(date, folder)` group: sort the group by the
posix form of the relative path, take the paths as `files` and the minimum
ceiling day count. -/
def mkAlert (asOf : Int) (d : Int) (f : AbsPath) (l : List FileDue) : Alert :=
  let se := sortByB fdLe l
  ⟨f, se.map Prod.fst, d, minDays asOf se⟩

/-- `FolderCleanerService.upcoming_alerts`: the date → alert-list mapping,
as an (insertion-ordered) association list. -/
def upcomingAlerts (svc : Service) (asOf windowDays : Int) (fs : FS) :
    List (Int × List Alert) :=
  (buildSchedule (registrations svc asOf windowDays fs)).map
    (fun g => (g.1, g.2.map (fun fo => mkAlert asOf g.1 fo.1 fo.2)))

/-! ### Lookups over the returned mappings -/

/-- Look a date up in an association list keyed by dates. -/
def lookupDate : List (Int × α) → Int → Option α
  | [], _ => none
  | (k, v) :: rest, d => if k = d then some v else lookupDate rest d

/-- Look a folder up in a folder-keyed association list. -/
def lookupFolder : List (AbsPath × α) → AbsPath → Option α
  | [], _ => none
  | (k, v) :: rest, f => if k = f then some v else lookupFolder rest f

/-- The file/due list registered under a given date and folder (empty when
the group is absent). -/
def lookupGroup (sch : List (Int × List (AbsPath × List FileDue))) (d : Int)
    (f : AbsPath) : List FileDue :=
  match lookupDate sch d with
  | none => []
  | some folders => (lookupFolder folders f).getD []

/-- Whether a `(date, folder)` group is present in the schedule. -/
def hasGroup (sch : List (Int × List (AbsPath × List FileDue))) (d : Int)
    (f : AbsPath) : Bool :=
  match lookupDate sch d with
  | none => false
  | some folders => (lookupFolder folders f).isSome

/-- The `(date, folder)` group of a registration sequence: the file/due
pairs registered under that date and folder, in order. -/
def groupRegs (rs : List Reg) (d : Int) (f : AbsPath) : List FileDue :=
  (rs.filter (fun r => decide (r.1 = d) && decide (r.2.1 = f))).map
    (fun r => (r.2.2.1, r.2.2.2))

/-- Both dictionary levels of a schedule have duplicate-free keys (as
Python dictionaries do). -/
def schKeysNodup (sch : List (Int × List (AbsPath × List FileDue))) : Prop :=
  (sch.map Prod.fst).Nodup ∧ ∀ g ∈ sch, (g.2.map Prod.fst).Nodup

/-! ### Derived and comparison definitions -/

/-- A pattern of literal characters only (no `.` or `*` metacharacters). -/
def litPattern (s : String) : Prop := ∀ c ∈ s.toList, c ≠ '.' ∧ c ≠ '*'

/-- The sequence of entries `cleanup` actually disposes for one rule, in
processing order: the deepest-first sorted entry list, restricted to the
non-exempt stale ones. -/
def disposalSeq (rule : FolderRule) (asOf : Int) (fs : FS) :
    List (AbsPath × RelPath × Int) :=
  (sortByB depthGe (collect fs rule)).filter (shouldDispose rule asOf)

/-- Unconditional disposal of a list of entries in order (the effect of the
`cleanup` loop on exactly the entries it disposes). -/
def runDisposals (svc : Service) (rule : FolderRule) (now : Int) :
    FS → List (AbsPath × RelPath × Int) → FS × List AbsPath
  | fs, [] => (fs, [])
  | fs, (src, rel, _) :: rest =>
    let step := dispose svc rule now fs src rel (effectivePolicy rule rel).2
    let next := runDisposals svc rule now step.1 rest
    (next.1, step.2 :: next.2)

/-- A rule with extra exemption paths appended. -/
def addEx (r : FolderRule) (more : List PurePath) : FolderRule :=
  { r with exemptions := r.exemptions ++ more }

/-- The service with each rule's exemptions extended by `f`. -/
def extendEx (svc : Service) (f : FolderRule → List PurePath) : Service :=
  { svc with rules := svc.rules.map (fun r => addEx r (f r)) }

/-- The shape `^\d+[hdwy]$` or `^\d+$` of the claims, as a predicate on the
text itself (ASCII digits). -/
def durationShape (t : String) : Prop :=
  (t.toList ≠ [] ∧ t.toList.all (·.isDigit) = true) ∨
  (∃ ds u, t.toList = ds ++ [u] ∧ ds ≠ [] ∧ ds.all (·.isDigit) = true ∧
    (u = 'h' ∨ u = 'd' ∨ u = 'w' ∨ u = 'y'))

/-- Modelled from the spec's words for comparison with `exemptMatches`
(claim C6): "an entry is exempt if any exemption string, treated as a
relative path, either (a) is absolute and equals the entry's relative path
exactly, or (b) is relative and is a path-prefix of the entry's relative
path (component-wise), or (c) its final path component equals the entry's
base name" — read as a flat three-way disjunction, so that clause (c) is
not restricted to relative exemptions. -/
def specExemptMatches (rel : RelPath) (ex : PurePath) : Bool :=
  (ex.isRoot && decide (PurePath.mk false rel = ex))
    || (! ex.isRoot && decide (rel.take ex.comps.length = ex.comps))
    || (decide (pname ex ≠ "") && decide (pname ex = relName rel))

/-- Modelled from the spec's words (claim C6): the exemption test as the
spec sentence literally reads. -/
def specIsExempt (rule : FolderRule) (rel : RelPath) : Bool :=
  rule.exemptions.any (specExemptMatches rel)

/-! ### Concrete instances used by witnesses and counterexamples -/

/-- A rule with retention 10 days and lead-times 2 and 5 days. -/
def exRule : FolderRule :=
  { path := ["root"], retention := 864000, notifyBefore := [172800, 432000],
    exemptions := [], action := "delete", patterns := [] }

def exSvc : Service := { rules := [exRule], trashDir := none, sysTrash := ["trash"] }

/-- A root directory containing one file whose modification instant is 0. -/
def exFs : FS := ⟨[⟨["root"], 0, true⟩, ⟨["root", "f.txt"], 0, false⟩]⟩

/-- A rule whose pattern override gives `b*` files retention 11 days and
lead-time 6 days, while the folder default is 10 days with lead-time 5. -/
def c4Rule : FolderRule :=
  { path := ["root"], retention := 864000, notifyBefore := [432000],
    exemptions := [], action := "delete",
    patterns := [{ pattern := "^b", retention := 950400, notifyBefore := [518400],
                   action := "delete" }] }

def c4Svc : Service := { rules := [c4Rule], trashDir := none, sysTrash := ["trash"] }

/-- Two files of the same folder whose alerts fall on the same date. -/
def c4Fs : FS :=
  ⟨[⟨["root"], 0, true⟩, ⟨["root", "b.txt"], 0, false⟩, ⟨["root", "a.txt"], 0, false⟩]⟩

/-- A trash-action rule whose managed trash root lies inside the rule root. -/
def cxRule : FolderRule :=
  { path := ["data"], retention := 432000, notifyBefore := [], exemptions := [],
    action := "trash", patterns := [] }

def cxSvc : Service :=
  { rules := [cxRule], trashDir := some ["data", "trash"], sysTrash := ["st"] }

def cxFs : FS := ⟨[⟨["data"], 0, true⟩, ⟨["data", "old.txt"], 0, false⟩]⟩

/-- A delete-action service whose trash roots are incomparable with the
rule root. -/
def w7Svc : Service :=
  { rules := [cxRule], trashDir := some ["T"], sysTrash := ["st"] }

/-- A rule carrying an absolute exemption whose base name matches files
named `keep.log`. -/
def c6Rule : FolderRule :=
  { path := ["r"], retention := 0, notifyBefore := [], action := "delete", patterns := [],
    exemptions := [⟨true, ["anywhere", "keep.log"]⟩] }

/-- A rule with a bare-filename exemption. -/
def c6bRule : FolderRule :=
  { path := ["r"], retention := 0, notifyBefore := [], action := "delete", patterns := [],
    exemptions := [⟨false, ["keep.log"]⟩] }

/-- A trash-action rule rooted at `a/data`. -/
def c8Rule : FolderRule :=
  { path := ["a", "data"], retention := 0, notifyBefore := [], exemptions := [],
    action := "trash", patterns := [] }

/-- Two same-named files under two roots both named `data`. -/
def c8Fs : FS :=
  ⟨[⟨["a", "data"], 0, true⟩, ⟨["a", "data", "x.txt"], 0, false⟩,
    ⟨["b", "data"], 0, true⟩, ⟨["b", "data", "x.txt"], 5, false⟩]⟩

/-- A rule with two pattern overrides, the second being the first to match
`ScreenShot*` names. -/
def c2Rule : FolderRule :=
  { path := ["root"], retention := 864000, notifyBefore := [432000],
    exemptions := [], action := "delete",
    patterns := [{ pattern := "^zz", retention := 5, notifyBefore := [7], action := "trash" },
                 { pattern := "^ScreenShot", retention := 86400, notifyBefore := [3600],
                   action := "delete" }] }

/-- A stale directory with a stale child. -/
def c1Rule : FolderRule :=
  { path := ["r"], retention := 86400, notifyBefore := [], exemptions := [],
    action := "delete", patterns := [] }

def c1Svc : Service := { rules := [c1Rule], trashDir := none, sysTrash := ["st"] }

def c1Fs : FS :=
  ⟨[⟨["r"], 0, true⟩, ⟨["r", "d"], 0, true⟩, ⟨["r", "d", "f.txt"], 0, false⟩]⟩

/-- Every trash root the service can move entries into: the system trash
and, when configured, the managed trash directory. -/
def trashRoots (svc : Service) : List AbsPath :=
  svc.sysTrash :: svc.trashDir.toList

/-- The configuration constraint of the amended idempotence claim (C7):
every trash root is path-incomparable with every rule root, so disposals
never land back inside a managed folder. -/
def trashSafe (svc : Service) : Prop :=
  ∀ t ∈ trashRoots svc, ∀ r ∈ svc.rules, incomparable r.path t

/-- A path below no rule root; entries there are invisible to `cleanup`. -/
def outsideRoots (svc : Service) (p : AbsPath) : Prop :=
  ∀ r ∈ svc.rules, ¬ leads r.path p

/-! ## Helper lemmas -/

/-! ### First-match characterization -/

theorem findPattern_of_all_false {pats : List PatternRule} {name : String}
    (h : ∀ pr ∈ pats, reMatch pr.pattern name = false) :
    findPattern pats name = none := by
  induction pats with
  | nil => rfl
  | cons pr rest ih =>
    rw [findPattern, h pr (List.mem_cons_self pr rest)]
    exact ih fun pr' h' => h pr' (List.mem_cons_of_mem pr h')

theorem findPattern_of_first {pats : List PatternRule} {name : String} {i : Nat}
    (h : i < pats.length)
    (hmatch : reMatch (pats.get ⟨i, h⟩).pattern name = true)
    (hbefore : ∀ j, (hj : j < i) → reMatch (pats.get ⟨j, Nat.lt_trans hj h⟩).pattern name = false) :
    findPattern pats name = some (pats.get ⟨i, h⟩) := by
  induction pats generalizing i with
  | nil => exact absurd h (Nat.not_lt_zero i)
  | cons pr rest ih =>
    cases i with
    | zero =>
      simp only [List.get] at hmatch ⊢
      rw [findPattern, hmatch]
      simp
    | succ n =>
      have h0 : reMatch pr.pattern name = false := hbefore 0 (Nat.succ_pos n)
      rw [findPattern, h0]
      simp only [List.get] at hmatch ⊢
      exact ih (Nat.lt_of_succ_lt_succ h) hmatch
        (fun j hj => hbefore (j + 1) (Nat.succ_lt_succ hj))

/-! ### Fuel irrelevance and unfolding equations for the matcher -/

theorem rmatchF_congr : ∀ (f1 : Nat) (p s : List Char) (f2 : Nat),
    p.length + s.length < f1 → p.length + s.length < f2 →
    rmatchF f1 p s = rmatchF f2 p s := by
  intro f1
  induction f1 with
  | zero => intro p s f2 h1 _; exact absurd h1 (Nat.not_lt_zero _)
  | succ g ih =>
    intro p s f2 h1 h2
    cases f2 with
    | zero => exact absurd h2 (Nat.not_lt_zero _)
    | succ k =>
      cases p with
      | nil => rfl
      | cons c ptail =>
        cases ptail with
        | nil =>
          cases s with
          | nil => rfl
          | cons x xs =>
            simp only [List.length_cons, List.length_nil] at h1 h2
            show ((c == '.' || c == x) && rmatchF g [] xs)
                = ((c == '.' || c == x) && rmatchF k [] xs)
            rw [ih [] xs k (by simp only [List.length_nil]; omega)
                (by simp only [List.length_nil]; omega)]
        | cons c2 ps =>
          cases s with
          | nil =>
            simp only [List.length_cons, List.length_nil] at h1 h2
            show (if c2 == '*' then rmatchF g ps [] || false else false)
                = (if c2 == '*' then rmatchF k ps [] || false else false)
            by_cases hstar : (c2 == '*') = true
            · rw [if_pos hstar, if_pos hstar,
                ih ps [] k (by simp only [List.length_nil]; omega)
                  (by simp only [List.length_nil]; omega)]
            · rw [if_neg hstar, if_neg hstar]
          | cons x xs =>
            simp only [List.length_cons] at h1 h2
            show (if c2 == '*' then
                    rmatchF g ps (x :: xs)
                      || ((c == '.' || c == x) && rmatchF g (c :: c2 :: ps) xs)
                  else ((c == '.' || c == x) && rmatchF g (c2 :: ps) xs))
                = (if c2 == '*' then
                    rmatchF k ps (x :: xs)
                      || ((c == '.' || c == x) && rmatchF k (c :: c2 :: ps) xs)
                  else ((c == '.' || c == x) && rmatchF k (c2 :: ps) xs))
            by_cases hstar : (c2 == '*') = true
            · rw [if_pos hstar, if_pos hstar,
                ih ps (x :: xs) k (by simp only [List.length_cons]; omega)
                  (by simp only [List.length_cons]; omega),
                ih (c :: c2 :: ps) xs k (by simp only [List.length_cons]; omega)
                  (by simp only [List.length_cons]; omega)]
            · rw [if_neg hstar, if_neg hstar,
                ih (c2 :: ps) xs k (by simp only [List.length_cons]; omega)
                  (by simp only [List.length_cons]; omega)]

theorem rmatchF_eq_rmatch {f : Nat} {p s : List Char} (h : p.length + s.length < f) :
    rmatchF f p s = rmatch p s :=
  rmatchF_congr f p s (p.length + s.length + 1) h (Nat.lt_succ_self _)

theorem rmatch_nil_eq (s : List Char) : rmatch [] s = true := rfl

theorem rmatch_one_nil (c : Char) : rmatch [c] [] = false := rfl

theorem rmatch_one_cons (c x : Char) (xs : List Char) :
    rmatch [c] (x :: xs) = ((c == '.' || c == x) && rmatch [] xs) := rfl

theorem rmatch_two_nil (c c2 : Char) (ps : List Char) :
    rmatch (c :: c2 :: ps) [] = (if c2 == '*' then rmatch ps [] else false) := by
  have e : rmatch (c :: c2 :: ps) []
      = (if c2 == '*' then rmatchF (ps.length + 2) ps [] || false else false) := rfl
  rw [e]
  by_cases h : (c2 == '*') = true
  · rw [if_pos h, if_pos h, rmatchF_eq_rmatch (by simp only [List.length_nil]; omega),
      Bool.or_false]
  · rw [if_neg h, if_neg h]

theorem rmatch_two_cons (c c2 : Char) (ps : List Char) (x : Char) (xs : List Char) :
    rmatch (c :: c2 :: ps) (x :: xs)
      = (if c2 == '*' then
          rmatch ps (x :: xs) || ((c == '.' || c == x) && rmatch (c :: c2 :: ps) xs)
         else ((c == '.' || c == x) && rmatch (c2 :: ps) xs)) := by
  have e : rmatch (c :: c2 :: ps) (x :: xs)
      = (if c2 == '*' then
          rmatchF (ps.length + 2 + (xs.length + 1)) ps (x :: xs)
            || ((c == '.' || c == x) && rmatchF (ps.length + 2 + (xs.length + 1)) (c :: c2 :: ps) xs)
         else ((c == '.' || c == x) && rmatchF (ps.length + 2 + (xs.length + 1)) (c2 :: ps) xs)) := rfl
  rw [e]
  rw [rmatchF_eq_rmatch (by simp only [List.length_cons]; omega),
    rmatchF_eq_rmatch (by simp only [List.length_cons]; omega),
    rmatchF_eq_rmatch (by simp only [List.length_cons]; omega)]

/-! ### `rmatch` on literal patterns is anchored-prefix matching -/

theorem rmatch_literal (p : List Char) (hp : ∀ c ∈ p, c ≠ '.' ∧ c ≠ '*') :
    ∀ s : List Char, rmatch p s = true ↔ s.take p.length = p := by
  induction p with
  | nil => intro s; simp [rmatch_nil_eq]
  | cons c ptail ih =>
    have hc : c ≠ '.' := (hp c (List.mem_cons_self c ptail)).1
    have hcb : (c == '.') = false := by simpa using hc
    intro s
    cases ptail with
    | nil =>
      cases s with
      | nil => rw [rmatch_one_nil]; simp
      | cons x xs =>
        rw [rmatch_one_cons, rmatch_nil_eq]
        simp only [hcb, Bool.false_or, Bool.and_true, beq_iff_eq, List.length_cons,
          List.length_nil, List.take_succ_cons, List.take_zero, List.cons.injEq, and_true]
        exact eq_comm
    | cons c2 ps =>
      have hc2 : (c2 == '*') = false := by
        simpa using (hp c2 (List.mem_cons_of_mem c (List.mem_cons_self c2 ps))).2
      have ih' := ih (fun d hd => hp d (List.mem_cons_of_mem c hd))
      cases s with
      | nil =>
        rw [rmatch_two_nil]
        simp [hc2]
      | cons x xs =>
        rw [rmatch_two_cons]
        rw [hc2]
        simp only [Bool.false_eq_true, if_false]
        simp only [hcb, Bool.false_or, Bool.and_eq_true, beq_iff_eq, List.length_cons,
          List.take_succ_cons, List.cons.injEq]
        rw [ih' xs]
        simp only [List.length_cons]
        constructor
        · rintro ⟨h1, h2⟩; exact ⟨h1.symm, h2⟩
        · rintro ⟨h1, h2⟩; exact ⟨h1.symm, h2⟩

theorem insertB_perm (le : α → α → Bool) (x : α) (l : List α) :
    (insertB le x l).Perm (x :: l) := by
  induction l with
  | nil => exact List.Perm.refl _
  | cons y ys ih =>
    rw [insertB]
    by_cases h : le x y = true
    · rw [if_pos h]
    · rw [if_neg h]
      exact (List.Perm.cons y ih).trans (List.Perm.swap x y ys)

theorem sortByB_perm (le : α → α → Bool) (l : List α) : (sortByB le l).Perm l := by
  induction l with
  | nil => exact List.Perm.refl _
  | cons x xs ih => exact (insertB_perm le x (sortByB le xs)).trans (List.Perm.cons x ih)

theorem mem_sortByB (le : α → α → Bool) (l : List α) (a : α) :
    a ∈ sortByB le l ↔ a ∈ l :=
  (sortByB_perm le l).mem_iff

theorem insertB_pairwise {le : α → α → Bool}
    (htrans : ∀ a b c, le a b = true → le b c = true → le a c = true)
    (htot : ∀ a b, le a b = true ∨ le b a = true) {x : α} {l : List α}
    (h : l.Pairwise (fun a b => le a b = true)) :
    (insertB le x l).Pairwise (fun a b => le a b = true) := by
  induction l with
  | nil => simp [insertB]
  | cons y ys ih =>
    rw [insertB]
    rcases List.pairwise_cons.mp h with ⟨hy, hys⟩
    by_cases hxy : le x y = true
    · rw [if_pos hxy]
      refine List.pairwise_cons.mpr ⟨?_, h⟩
      intro b hb
      rcases List.mem_cons.mp hb with rfl | hb
      · exact hxy
      · exact htrans x y b hxy (hy b hb)
    · rw [if_neg hxy]
      have hyx : le y x = true := (htot x y).resolve_left hxy
      refine List.pairwise_cons.mpr ⟨?_, ih hys⟩
      intro b hb
      rcases List.mem_cons.mp ((insertB_perm le x ys).mem_iff.mp hb) with rfl | hb
      · exact hyx
      · exact hy b hb

theorem sortByB_pairwise {le : α → α → Bool}
    (htrans : ∀ a b c, le a b = true → le b c = true → le a c = true)
    (htot : ∀ a b, le a b = true ∨ le b a = true) (l : List α) :
    (sortByB le l).Pairwise (fun a b => le a b = true) := by
  induction l with
  | nil => simp [sortByB]
  | cons x xs ih => exact insertB_pairwise htrans htot ih

theorem reMatch_caret_literal (pat s : String) (hp : litPattern pat) :
    reMatch ("^" ++ pat) s = true ↔ s.toList.take pat.toList.length = pat.toList := by
  have hdata : ("^" ++ pat).toList = '^' :: pat.toList := by
    show ("^" ++ pat).data = '^' :: pat.data
    rw [String.data_append]; rfl
  rw [reMatch, hdata]
  exact rmatch_literal pat.toList hp s.toList

/-! ### The regex alternation of the duration parsers -/

theorem isDigit_unit_false (c : Char) (h : c = 'h' ∨ c = 'd' ∨ c = 'w' ∨ c = 'y') :
    c.isDigit = false := by
  rcases h with rfl | rfl | rfl | rfl <;> decide

theorem matchDuration_eq_none_iff (t : String) :
    matchDuration t = none ↔ ¬ durationShape t := by
  rcases h : t.toList.getLast? with _ | c
  · have ht : t.toList = [] := List.getLast?_eq_none_iff.mp h
    have hm : matchDuration t = none := by rw [matchDuration, h]
    rw [hm]
    refine iff_of_true rfl ?_
    intro hshape
    unfold durationShape at hshape
    rcases hshape with ⟨hne, _⟩ | ⟨ds, u, heq, _, _, _⟩
    · exact hne ht
    · rw [ht] at heq
      exact absurd heq.symm (by simp)
  · obtain ⟨ys, hys⟩ := List.getLast?_eq_some_iff.mp h
    have huc : ∀ {u : Char} {ds : List Char}, t.toList = ds ++ [u] → u = c := by
      intro u ds heq
      have h1 : t.toList.getLast? = some u := by rw [heq]; exact List.getLast?_concat ds
      rw [h] at h1
      exact (Option.some_inj.mp h1).symm
    have hdl : ∀ {u : Char} {ds : List Char}, t.toList = ds ++ [u] → ds = ys := by
      intro u ds heq
      have h2 : (ds ++ [u]).dropLast = (ys ++ [c]).dropLast := by rw [← heq, ← hys]
      rwa [List.dropLast_concat, List.dropLast_concat] at h2
    have hm0 : matchDuration t
        = (if c = 'h' ∨ c = 'd' ∨ c = 'w' ∨ c = 'y' then
            (if t.toList.dropLast ≠ [] ∧ t.toList.dropLast.all (·.isDigit) = true then
              some (digitsVal t.toList.dropLast, c) else none)
           else
            (if t.toList.all (·.isDigit) = true then
              some (digitsVal t.toList, 'd') else none)) := by
      rw [matchDuration, h]
    by_cases hu : c = 'h' ∨ c = 'd' ∨ c = 'w' ∨ c = 'y'
    · have hm : matchDuration t
          = if t.toList.dropLast ≠ [] ∧ t.toList.dropLast.all (·.isDigit) = true then
              some (digitsVal t.toList.dropLast, c) else none := by
        rw [hm0, if_pos hu]
      rw [hys, List.dropLast_concat] at hm
      by_cases hcond : ys ≠ [] ∧ ys.all (·.isDigit) = true
      · rw [hm, if_pos hcond]
        constructor
        · intro habs; exact absurd habs (by simp)
        · intro hns
          refine absurd ?_ hns
          unfold durationShape
          exact Or.inr ⟨ys, c, hys, hcond.1, hcond.2, hu⟩
      · rw [hm, if_neg hcond]
        refine iff_of_true rfl ?_
        intro hshape
        unfold durationShape at hshape
        rcases hshape with ⟨_, hall⟩ | ⟨ds, u, heq, hne, hall, _⟩
        · rw [hys] at hall
          have hcd := List.all_eq_true.mp hall c (by simp)
          rw [isDigit_unit_false c hu] at hcd
          exact absurd hcd (by simp)
        · have hd : ds = ys := hdl heq
          exact hcond ⟨hd ▸ hne, hd ▸ hall⟩
    · have hm : matchDuration t
          = if t.toList.all (·.isDigit) = true then some (digitsVal t.toList, 'd') else none := by
        rw [hm0, if_neg hu]
      by_cases hall : t.toList.all (·.isDigit) = true
      · rw [hm, if_pos hall]
        constructor
        · intro habs; exact absurd habs (by simp)
        · intro hns
          refine absurd ?_ hns
          unfold durationShape
          exact Or.inl ⟨by rw [hys]; simp, hall⟩
      · rw [hm, if_neg hall]
        refine iff_of_true rfl ?_
        intro hshape
        unfold durationShape at hshape
        rcases hshape with ⟨_, hall'⟩ | ⟨ds, u, heq, _, _, hu'⟩
        · exact hall hall'
        · exact hu ((huc heq) ▸ hu')

/-! ### Exemption lemmas -/

theorem exemptMatches_iff (rel : RelPath) (ex : PurePath) :
    exemptMatches rel ex = true ↔
      ((ex.isRoot = true ∧ PurePath.mk false rel = ex) ∨
       (ex.isRoot = false ∧
         (rel.take ex.comps.length = ex.comps ∨
           (pname ex ≠ "" ∧ pname ex = relName rel)))) := by
  rw [exemptMatches]
  by_cases hr : ex.isRoot = true
  · rw [if_pos hr]
    simp [hr]
  · have hrf : ex.isRoot = false := by simpa using hr
    rw [if_neg hr]
    have himp : rel.take ex.comps.length = ex.comps → ex.comps.length ≤ rel.length := by
      intro h
      have hlen := congrArg List.length h
      rw [List.length_take] at hlen
      omega
    simp only [Bool.or_eq_true, Bool.and_eq_true, decide_eq_true_eq]
    constructor
    · rintro (⟨_, htake⟩ | ⟨hne, hmn⟩)
      · exact Or.inr ⟨hrf, Or.inl htake⟩
      · exact Or.inr ⟨hrf, Or.inr ⟨hne, hmn⟩⟩
    · rintro (⟨hroot, _⟩ | ⟨_, htake | ⟨hne, hmn⟩⟩)
      · exact absurd hroot hr
      · exact Or.inl ⟨himp htake, htake⟩
      · exact Or.inr ⟨hne, hmn⟩

theorem exemptMatches_absolute (rel : RelPath) (p : PurePath) (hp : p.isRoot = true) :
    exemptMatches rel p = false := by
  rw [exemptMatches, if_pos hp]
  simp only [decide_eq_false_iff_not]
  intro h
  rw [← h] at hp
  exact Bool.false_ne_true hp

theorem isExempt_addEx (r : FolderRule) (rel : RelPath) (more : List PurePath)
    (hm : ∀ p ∈ more, p.isRoot = true) :
    isExempt (addEx r more) rel = isExempt r rel := by
  show (r.exemptions ++ more).any (exemptMatches rel) = r.exemptions.any (exemptMatches rel)
  rw [List.any_append]
  have hfalse : more.any (exemptMatches rel) = false :=
    List.any_eq_false.mpr fun p hp habs => by
      rw [exemptMatches_absolute rel p (hm p hp)] at habs
      exact absurd habs (by simp)
  rw [hfalse, Bool.or_false]

/-! ### Adding absolute exemptions changes nothing in the engine -/

theorem runEntries_addEx (svc : Service) (axs : FolderRule → List PurePath)
    (r : FolderRule) (asOf now : Int)
    (hm : ∀ p ∈ axs r, p.isRoot = true) :
    ∀ (l : List (AbsPath × RelPath × Int)) (fs : FS),
      runEntries (extendEx svc axs) (addEx r (axs r)) asOf now fs l
        = runEntries svc r asOf now fs l := by
  intro l
  induction l with
  | nil => intro fs; rfl
  | cons t rest ih =>
    intro fs
    obtain ⟨src, rel, mt⟩ := t
    rw [runEntries, runEntries, isExempt_addEx r rel (axs r) hm]
    by_cases h1 : isExempt r rel = true
    · rw [if_pos h1, if_pos h1]
      exact ih fs
    · rw [if_neg h1, if_neg h1]
      have hpol : effectivePolicy (addEx r (axs r)) rel = effectivePolicy r rel := rfl
      rw [hpol]
      by_cases h2 : (effectivePolicy r rel).1 ≤ asOf - mt
      · rw [if_pos h2, if_pos h2]
        have hd : dispose (extendEx svc axs) (addEx r (axs r)) now fs src rel
              (effectivePolicy r rel).2
            = dispose svc r now fs src rel (effectivePolicy r rel).2 := rfl
        rw [hd]
        simp only [ih]
      · rw [if_neg h2, if_neg h2]
        exact ih fs

theorem cleanupRule_addEx (svc : Service) (axs : FolderRule → List PurePath)
    (r : FolderRule) (asOf now : Int) (fs : FS)
    (hm : ∀ p ∈ axs r, p.isRoot = true) :
    cleanupRule (extendEx svc axs) (addEx r (axs r)) asOf now fs
      = cleanupRule svc r asOf now fs := by
  rw [cleanupRule, cleanupRule]
  have hact : ruleActive fs (addEx r (axs r)) = ruleActive fs r := rfl
  rw [hact]
  by_cases h : ruleActive fs r = true
  · rw [if_pos h, if_pos h]
    have hcol : collect fs (addEx r (axs r)) = collect fs r := rfl
    rw [hcol, runEntries_addEx svc axs r asOf now hm]
  · rw [if_neg h, if_neg h]

theorem cleanupRules_extendEx (svc : Service) (axs : FolderRule → List PurePath)
    (asOf now : Int) (hax : ∀ r, ∀ p ∈ axs r, p.isRoot = true) :
    ∀ (rs : List FolderRule) (fs : FS),
      cleanupRules (extendEx svc axs) asOf now fs (rs.map (fun r => addEx r (axs r)))
        = cleanupRules svc asOf now fs rs := by
  intro rs
  induction rs with
  | nil => intro fs; rfl
  | cons r rest ih =>
    intro fs
    rw [List.map_cons, cleanupRules, cleanupRules,
      cleanupRule_addEx svc axs r asOf now fs (hax r), ih]

theorem ruleRegs_addEx (asOf asOfDate endDate : Int) (fs : FS) (r : FolderRule)
    (more : List PurePath) (hm : ∀ p ∈ more, p.isRoot = true) :
    ruleRegs asOf asOfDate endDate fs (addEx r more)
      = ruleRegs asOf asOfDate endDate fs r := by
  have hex : ∀ rel, isExempt (addEx r more) rel = isExempt r rel :=
    fun rel => isExempt_addEx r rel more hm
  have hp : (addEx r more).path = r.path := rfl
  have hpol : ∀ rel, effectivePolicy (addEx r more) rel = effectivePolicy r rel :=
    fun _ => rfl
  have hnot : ∀ rel, effectiveNotify (addEx r more) rel = effectiveNotify r rel :=
    fun _ => rfl
  have hact : ruleActive fs (addEx r more) = ruleActive fs r := rfl
  simp only [ruleRegs, hex, hp, hpol, hnot, hact]

theorem registrations_extendEx (svc : Service) (axs : FolderRule → List PurePath)
    (asOf w : Int) (fs : FS) (hax : ∀ r, ∀ p ∈ axs r, p.isRoot = true) :
    registrations (extendEx svc axs) asOf w fs = registrations svc asOf w fs := by
  rw [registrations, registrations]
  show (svc.rules.map fun r => addEx r (axs r)).flatMap _ = _
  rw [List.flatMap_map]
  exact congrArg svc.rules.flatMap
    (funext fun r => ruleRegs_addEx asOf (dateOf asOf) (dateOf asOf + w) fs r (axs r) (hax r))

/-! ### Schedule dictionary lemmas -/

theorem lookupFolder_insertFolder (folders : List (AbsPath × List FileDue))
    (f g : AbsPath) (x : FileDue) :
    lookupFolder (insertFolder folders f x) g
      = if g = f then some ((lookupFolder folders f).getD [] ++ [x])
        else lookupFolder folders g := by
  induction folders with
  | nil =>
    by_cases h : g = f
    · subst h
      simp [insertFolder, lookupFolder]
    · simp [insertFolder, lookupFolder, h, Ne.symm h]
  | cons kv rest ih =>
    obtain ⟨k, xs⟩ := kv
    rw [insertFolder]
    by_cases hkf : k = f
    · subst hkf
      rw [if_pos rfl]
      by_cases hkg : k = g
      · subst hkg
        simp [lookupFolder]
      · simp [lookupFolder, hkg, Ne.symm hkg]
    · rw [if_neg hkf]
      by_cases hkg : k = g
      · subst hkg
        simp [lookupFolder, hkf]
      · simp [lookupFolder, hkg, hkf, ih]

theorem lookupGroup_insertReg (sch : List (Int × List (AbsPath × List FileDue)))
    (r : Reg) (d : Int) (f : AbsPath) :
    lookupGroup (insertReg sch r) d f
      = lookupGroup sch d f
        ++ (if r.1 = d ∧ r.2.1 = f then [(r.2.2.1, r.2.2.2)] else []) := by
  induction sch with
  | nil =>
    by_cases hd : r.1 = d <;> by_cases hf : r.2.1 = f <;>
      simp [insertReg, lookupGroup, lookupDate, lookupFolder, hd, hf]
  | cons g0 rest ih =>
    obtain ⟨k, folders⟩ := g0
    rw [insertReg]
    by_cases hk : k = r.1
    · rw [if_pos hk]
      by_cases hkd : k = d
      · have hrd : r.1 = d := hk ▸ hkd
        simp only [lookupGroup, lookupDate, if_pos hkd]
        rw [lookupFolder_insertFolder]
        by_cases hf : r.2.1 = f
        · rw [if_pos hf.symm, if_pos ⟨hrd, hf⟩, hf]
          simp
        · rw [if_neg (fun hh => hf hh.symm), if_neg (fun hh => hf hh.2)]
          simp
      · have hrd : ¬ (r.1 = d) := fun hh => hkd (hk.trans hh)
        have hc : ¬ (r.1 = d ∧ r.2.1 = f) := fun hh => hrd hh.1
        simp only [lookupGroup, lookupDate, if_neg hkd, if_neg hc, List.append_nil]
    · rw [if_neg hk]
      by_cases hkd : k = d
      · have hrd : ¬ (r.1 = d) := fun hh => hk (hkd.trans hh.symm)
        simp [lookupGroup, lookupDate, hkd, hrd]
      · have hrec := ih
        simp only [lookupGroup, lookupDate, if_neg hkd] at hrec ⊢
        exact hrec

theorem lookupGroup_foldl (rs : List Reg) :
    ∀ (sch : List (Int × List (AbsPath × List FileDue))) (d : Int) (f : AbsPath),
      lookupGroup (rs.foldl insertReg sch) d f
        = lookupGroup sch d f ++ groupRegs rs d f := by
  induction rs with
  | nil => intro sch d f; simp [groupRegs]
  | cons r rest ih =>
    intro sch d f
    rw [List.foldl_cons, ih, lookupGroup_insertReg, List.append_assoc]
    congr 1
    simp only [groupRegs, List.filter_cons]
    by_cases h : r.1 = d ∧ r.2.1 = f
    · have hb : (decide (r.1 = d) && decide (r.2.1 = f)) = true := by
        simp [h.1, h.2]
      rw [if_pos h, hb]
      rfl
    · have hb : (decide (r.1 = d) && decide (r.2.1 = f)) = false := by
        rcases not_and_or.mp h with h1 | h1 <;> simp [h1]
      rw [if_neg h, hb]
      rfl

theorem lookupGroup_buildSchedule (rs : List Reg) (d : Int) (f : AbsPath) :
    lookupGroup (buildSchedule rs) d f = groupRegs rs d f := by
  rw [buildSchedule, lookupGroup_foldl]
  rfl

theorem hasGroup_insertReg (sch : List (Int × List (AbsPath × List FileDue)))
    (r : Reg) (d : Int) (f : AbsPath) :
    hasGroup (insertReg sch r) d f
      = (hasGroup sch d f || (decide (r.1 = d) && decide (r.2.1 = f))) := by
  induction sch with
  | nil =>
    by_cases hd : r.1 = d <;> by_cases hf : r.2.1 = f <;>
      simp [insertReg, hasGroup, lookupDate, lookupFolder, hd, hf]
  | cons g0 rest ih =>
    obtain ⟨k, folders⟩ := g0
    rw [insertReg]
    by_cases hk : k = r.1
    · rw [if_pos hk]
      by_cases hkd : k = d
      · have hrd : r.1 = d := hk ▸ hkd
        simp only [hasGroup, lookupDate, if_pos hkd]
        rw [lookupFolder_insertFolder]
        by_cases hf : r.2.1 = f
        · rw [if_pos hf.symm]
          simp [hrd, hf]
        · rw [if_neg (Ne.symm hf)]
          simp [hf]
      · have hrd : ¬ (r.1 = d) := fun hh => hkd (hk.trans hh)
        simp only [hasGroup, lookupDate, if_neg hkd]
        simp [hrd]
    · rw [if_neg hk]
      by_cases hkd : k = d
      · have hrd : ¬ (r.1 = d) := fun hh => hk (hkd.trans hh.symm)
        simp only [hasGroup, lookupDate, if_pos hkd]
        simp [hrd]
      · have hrec := ih
        simp only [hasGroup, lookupDate, if_neg hkd] at hrec ⊢
        exact hrec

theorem hasGroup_buildSchedule (rs : List Reg) (d : Int) (f : AbsPath) :
    hasGroup (buildSchedule rs) d f
      = rs.any (fun r => decide (r.1 = d) && decide (r.2.1 = f)) := by
  have key : ∀ (sch : List (Int × List (AbsPath × List FileDue))),
      hasGroup (rs.foldl insertReg sch) d f
        = (hasGroup sch d f || rs.any (fun r => decide (r.1 = d) && decide (r.2.1 = f))) := by
    induction rs with
    | nil => intro sch; simp
    | cons r rest ih =>
      intro sch
      rw [List.foldl_cons, ih, hasGroup_insertReg, List.any_cons]
      cases hasGroup sch d f <;> cases hb : (decide (r.1 = d) && decide (r.2.1 = f)) <;>
        simp [hb]
  rw [buildSchedule, key]
  rfl

theorem mem_keys_insertFolder (folders : List (AbsPath × List FileDue)) (f : AbsPath)
    (x : FileDue) (g : AbsPath) :
    g ∈ (insertFolder folders f x).map Prod.fst
      ↔ g ∈ folders.map Prod.fst ∨ g = f := by
  induction folders with
  | nil => simp [insertFolder]
  | cons kv rest ih =>
    obtain ⟨k, xs⟩ := kv
    rw [insertFolder]
    by_cases hkf : k = f
    · subst hkf
      rw [if_pos rfl]
      simp only [List.map_cons, List.mem_cons]
      tauto
    · rw [if_neg hkf]
      simp only [List.map_cons, List.mem_cons, ih]
      tauto

theorem nodup_keys_insertFolder (folders : List (AbsPath × List FileDue)) (f : AbsPath)
    (x : FileDue) (h : (folders.map Prod.fst).Nodup) :
    ((insertFolder folders f x).map Prod.fst).Nodup := by
  induction folders with
  | nil => simp [insertFolder]
  | cons kv rest ih =>
    obtain ⟨k, xs⟩ := kv
    rw [insertFolder]
    simp only [List.map_cons, List.nodup_cons] at h
    by_cases hkf : k = f
    · subst hkf
      rw [if_pos rfl]
      simp only [List.map_cons, List.nodup_cons]
      exact h
    · rw [if_neg hkf]
      simp only [List.map_cons, List.nodup_cons, mem_keys_insertFolder]
      exact ⟨fun hh => hh.elim h.1 hkf, ih h.2⟩

theorem mem_keys_insertReg (sch : List (Int × List (AbsPath × List FileDue)))
    (r : Reg) (d : Int) :
    d ∈ (insertReg sch r).map Prod.fst ↔ d ∈ sch.map Prod.fst ∨ d = r.1 := by
  induction sch with
  | nil => simp [insertReg]
  | cons g0 rest ih =>
    obtain ⟨k, folders⟩ := g0
    rw [insertReg]
    by_cases hk : k = r.1
    · subst hk
      rw [if_pos rfl]
      simp only [List.map_cons, List.mem_cons]
      tauto
    · rw [if_neg hk]
      simp only [List.map_cons, List.mem_cons, ih]
      tauto

theorem schKeysNodup_insertReg (sch : List (Int × List (AbsPath × List FileDue)))
    (r : Reg) (h : schKeysNodup sch) : schKeysNodup (insertReg sch r) := by
  obtain ⟨h1, h2⟩ := h
  induction sch with
  | nil =>
    refine ⟨by simp [insertReg], ?_⟩
    intro g hg
    rw [insertReg] at hg
    rcases List.mem_singleton.mp hg with rfl
    simp
  | cons g0 rest ih =>
    obtain ⟨k, folders⟩ := g0
    simp only [List.map_cons, List.nodup_cons] at h1
    have hrest : ∀ g ∈ rest, (g.2.map Prod.fst).Nodup :=
      fun g hg => h2 g (List.mem_cons_of_mem _ hg)
    rw [insertReg]
    by_cases hk : k = r.1
    · rw [if_pos hk]
      refine ⟨by simpa using h1, ?_⟩
      intro g hg
      rcases List.mem_cons.mp hg with rfl | hg
      · exact nodup_keys_insertFolder folders r.2.1 (r.2.2.1, r.2.2.2)
          (h2 (k, folders) (List.mem_cons_self _ _))
      · exact hrest g hg
    · rw [if_neg hk]
      have ihres := ih h1.2 hrest
      refine ⟨?_, ?_⟩
      · simp only [List.map_cons, List.nodup_cons, mem_keys_insertReg]
        exact ⟨fun hh => hh.elim h1.1 hk, ihres.1⟩
      · intro g hg
        rcases List.mem_cons.mp hg with rfl | hg
        · exact h2 (k, folders) (List.mem_cons_self _ _)
        · exact ihres.2 g hg

theorem schKeysNodup_buildSchedule (rs : List Reg) : schKeysNodup (buildSchedule rs) := by
  have key : ∀ (sch : List (Int × List (AbsPath × List FileDue))),
      schKeysNodup sch → schKeysNodup (rs.foldl insertReg sch) := by
    induction rs with
    | nil => intro sch h; exact h
    | cons r rest ih =>
      intro sch h
      rw [List.foldl_cons]
      exact ih (insertReg sch r) (schKeysNodup_insertReg sch r h)
  exact key [] ⟨by simp, by simp⟩

theorem lookupFolder_of_mem (folders : List (AbsPath × List FileDue)) (f : AbsPath)
    (l : List FileDue) (h : (folders.map Prod.fst).Nodup) (hmem : (f, l) ∈ folders) :
    lookupFolder folders f = some l := by
  induction folders with
  | nil => exact absurd hmem (List.not_mem_nil _)
  | cons kv rest ih =>
    obtain ⟨k, xs⟩ := kv
    simp only [List.map_cons, List.nodup_cons] at h
    rcases List.mem_cons.mp hmem with heq | hmem'
    · injection heq with hf hl
      subst hf
      subst hl
      rw [lookupFolder, if_pos rfl]
    · have hkf : k ≠ f := fun hh => by
        subst hh
        exact h.1 (List.mem_map.mpr ⟨(k, l), hmem', rfl⟩)
      rw [lookupFolder, if_neg hkf]
      exact ih h.2 hmem'

theorem lookupDate_of_mem (sch : List (Int × List (AbsPath × List FileDue))) (d : Int)
    (folders : List (AbsPath × List FileDue)) (h : (sch.map Prod.fst).Nodup)
    (hmem : (d, folders) ∈ sch) : lookupDate sch d = some folders := by
  induction sch with
  | nil => exact absurd hmem (List.not_mem_nil _)
  | cons kv rest ih =>
    obtain ⟨k, xs⟩ := kv
    simp only [List.map_cons, List.nodup_cons] at h
    rcases List.mem_cons.mp hmem with heq | hmem'
    · injection heq with hf hl
      subst hf
      subst hl
      rw [lookupDate, if_pos rfl]
    · have hkf : k ≠ d := fun hh => by
        subst hh
        exact h.1 (List.mem_map.mpr ⟨(k, folders), hmem', rfl⟩)
      rw [lookupDate, if_neg hkf]
      exact ih h.2 hmem'

theorem filter_key_singleton (folders : List (AbsPath × List FileDue)) (f : AbsPath)
    (h : (folders.map Prod.fst).Nodup) :
    folders.filter (fun fo => decide (fo.1 = f))
      = (match lookupFolder folders f with
         | some l => [(f, l)]
         | none => []) := by
  induction folders with
  | nil => rfl
  | cons kv rest ih =>
    obtain ⟨k, xs⟩ := kv
    simp only [List.map_cons, List.nodup_cons] at h
    rw [List.filter_cons]
    by_cases hkf : k = f
    · subst hkf
      have hempty : rest.filter (fun fo => decide (fo.1 = k)) = [] := by
        rw [List.filter_eq_nil_iff]
        intro fo hfo hdec
        have hf1 : fo.1 = k := by simpa using hdec
        exact h.1 (List.mem_map.mpr ⟨fo, hfo, hf1⟩)
      rw [lookupFolder, if_pos rfl]
      simp [hempty]
    · rw [lookupFolder, if_neg hkf]
      have hd : (decide (k = f)) = false := by simpa using hkf
      simp only [hd]
      rw [if_neg (by simp [hkf])]
      exact ih h.2

/-- Looking a date up after mapping each group to its alerts. -/
theorem lookupDate_map {β : Type} (m : List (Int × List (AbsPath × List FileDue)))
    (g : Int → List (AbsPath × List FileDue) → β) (d : Int) :
    lookupDate (m.map fun x => (x.1, g x.1 x.2)) d = (lookupDate m d).map (g d) := by
  induction m with
  | nil => rfl
  | cons kv rest ih =>
    obtain ⟨k, v⟩ := kv
    by_cases hk : k = d
    · subst hk
      simp [lookupDate]
    · simp [lookupDate, hk, ih]

theorem mem_of_lookupDate_some {α : Type} (sch : List (Int × α)) (d : Int) (v : α)
    (h : lookupDate sch d = some v) : (d, v) ∈ sch := by
  induction sch with
  | nil => exact absurd h (by rw [lookupDate]; simp)
  | cons kv rest ih =>
    obtain ⟨k, xs⟩ := kv
    rw [lookupDate] at h
    by_cases hk : k = d
    · rw [if_pos hk] at h
      subst hk
      injection h with h
      subst h
      exact List.mem_cons_self _ _
    · rw [if_neg hk] at h
      exact List.mem_cons_of_mem _ (ih h)

/-! ### Membership in the registration sequence -/

theorem mem_registrations (svc : Service) (asOf w : Int) (fs : FS) (t : Reg) :
    t ∈ registrations svc asOf w fs ↔
      ∃ rule ∈ svc.rules,
        ruleActive fs rule = true ∧
          ∃ e,
            (e ∈ fs.entries ∧ strictUnder rule.path e.path) ∧
              isExempt rule (relOf rule.path e.path) = false ∧
                ¬ e.mtime + (effectivePolicy rule (relOf rule.path e.path)).1 < asOf ∧
                  ∃ L ∈ effectiveNotify rule (relOf rule.path e.path),
                    (¬ dateOf (e.mtime + (effectivePolicy rule (relOf rule.path e.path)).1 - L)
                        < dateOf asOf ∧
                      ¬ dateOf asOf + w
                        < dateOf (e.mtime + (effectivePolicy rule (relOf rule.path e.path)).1 - L)) ∧
                    (dateOf (e.mtime + (effectivePolicy rule (relOf rule.path e.path)).1 - L),
                      rule.path, relOf rule.path e.path,
                      dateOf (e.mtime + (effectivePolicy rule (relOf rule.path e.path)).1)) = t := by
  simp only [registrations, ruleRegs, entriesUnder, List.mem_flatMap, List.mem_ite_nil_right,
    List.mem_filter, List.mem_filterMap, List.mem_ite_nil_left, decide_eq_true_eq,
    Bool.not_eq_true, Option.ite_none_left_eq_some, Option.some.injEq, not_or]

/-- Every file/due pair of a `(date, folder)` group comes from a
registration whose due instant is not before `asOf` and whose recorded due
date is the date of that instant. -/
theorem groupRegs_due (svc : Service) (asOf w : Int) (fs : FS) (d : Int) (f : AbsPath)
    (fd : FileDue) (h : fd ∈ groupRegs (registrations svc asOf w fs) d f) :
    ∃ due : Int, ¬ due < asOf ∧ fd.2 = dateOf due := by
  rw [groupRegs] at h
  obtain ⟨r, hr, hfd⟩ := List.mem_map.mp h
  have hrmem : r ∈ registrations svc asOf w fs := (List.mem_filter.mp hr).1
  rw [mem_registrations] at hrmem
  obtain ⟨rule, _, _, e, _, _, hdue, L, _, _, heq⟩ := hrmem
  refine ⟨e.mtime + (effectivePolicy rule (relOf rule.path e.path)).1, hdue, ?_⟩
  have h4 : r.2.2.2 = dateOf (e.mtime + (effectivePolicy rule (relOf rule.path e.path)).1) := by
    rw [← heq]
  rw [← hfd]
  exact h4

/-! ### Day-count arithmetic -/

theorem dayCount_nonneg (asOf due : Int) (h : ¬ due < asOf) (rel : RelPath) :
    0 ≤ dayCount asOf (rel, dateOf due) := by
  show 0 ≤ ceilDays (midnight (dateOf due) - asOf)
  rw [midnight, dateOf, ceilDays, Int.fdiv_eq_ediv _ (by norm_num),
    Int.fdiv_eq_ediv _ (by norm_num)]
  omega

theorem foldl_min_le_init (asOf : Int) (xs : List FileDue) :
    ∀ init : Int, xs.foldl (fun acc fd => min acc (dayCount asOf fd)) init ≤ init := by
  induction xs with
  | nil => intro init; exact le_refl _
  | cons x rest ih =>
    intro init
    exact le_trans (ih _) (min_le_left _ _)

theorem foldl_min_le_mem (asOf : Int) (xs : List FileDue) (fd : FileDue) :
    ∀ init : Int, fd ∈ xs →
      xs.foldl (fun acc fd => min acc (dayCount asOf fd)) init ≤ dayCount asOf fd := by
  induction xs with
  | nil => intro _ h; exact absurd h (List.not_mem_nil _)
  | cons x rest ih =>
    intro init h
    rcases List.mem_cons.mp h with rfl | h
    · exact le_trans (foldl_min_le_init asOf rest _) (min_le_right _ _)
    · exact ih _ h

theorem foldl_min_exists (asOf : Int) (xs : List FileDue) :
    ∀ init : Int,
      xs.foldl (fun acc fd => min acc (dayCount asOf fd)) init = init
      ∨ ∃ fd ∈ xs, xs.foldl (fun acc fd => min acc (dayCount asOf fd)) init
          = dayCount asOf fd := by
  induction xs with
  | nil => intro init; exact Or.inl rfl
  | cons x rest ih =>
    intro init
    rcases ih (min init (dayCount asOf x)) with h | ⟨fd, hfd, h⟩
    · rw [List.foldl_cons, h]
      rcases le_total init (dayCount asOf x) with hle | hle
      · exact Or.inl (min_eq_left hle)
      · exact Or.inr ⟨x, List.mem_cons_self _ _, min_eq_right hle⟩
    · exact Or.inr ⟨fd, List.mem_cons_of_mem _ hfd, h⟩

theorem foldl_min_lb (asOf c : Int) (xs : List FileDue) :
    ∀ init : Int, c ≤ init → (∀ fd ∈ xs, c ≤ dayCount asOf fd) →
      c ≤ xs.foldl (fun acc fd => min acc (dayCount asOf fd)) init := by
  induction xs with
  | nil => intro init h _; exact h
  | cons x rest ih =>
    intro init h hall
    rw [List.foldl_cons]
    exact ih _ (le_min h (hall x (List.mem_cons_self _ _)))
      (fun fd hfd => hall fd (List.mem_cons_of_mem _ hfd))

theorem minDays_le (asOf : Int) (l : List FileDue) (fd : FileDue) (h : fd ∈ l) :
    minDays asOf l ≤ dayCount asOf fd := by
  cases l with
  | nil => exact absurd h (List.not_mem_nil _)
  | cons x xs =>
    rw [minDays]
    rcases List.mem_cons.mp h with rfl | h
    · exact foldl_min_le_init asOf xs _
    · exact foldl_min_le_mem asOf xs fd _ h

theorem minDays_mem (asOf : Int) (l : List FileDue) (h : l ≠ []) :
    ∃ fd ∈ l, minDays asOf l = dayCount asOf fd := by
  cases l with
  | nil => exact absurd rfl h
  | cons x xs =>
    rw [minDays]
    rcases foldl_min_exists asOf xs (dayCount asOf x) with h1 | ⟨fd, hfd, h1⟩
    · exact ⟨x, List.mem_cons_self _ _, h1⟩
    · exact ⟨fd, List.mem_cons_of_mem _ hfd, h1⟩

theorem minDays_nonneg (asOf : Int) (l : List FileDue)
    (h : ∀ fd ∈ l, 0 ≤ dayCount asOf fd) : 0 ≤ minDays asOf l := by
  cases l with
  | nil => rw [minDays]
  | cons x xs =>
    rw [minDays]
    exact foldl_min_lb asOf 0 xs _ (h x (List.mem_cons_self _ _))
      (fun fd hfd => h fd (List.mem_cons_of_mem _ hfd))

/-! ### The posix sort key is a total preorder -/

theorem charListLe_total : ∀ a b : List Char, charListLe a b = true ∨ charListLe b a = true := by
  intro a
  induction a with
  | nil => intro b; exact Or.inl rfl
  | cons x xs ih =>
    intro b
    cases b with
    | nil => exact Or.inr rfl
    | cons y ys =>
      by_cases hxy : x = y
      · subst hxy
        rcases ih ys with h | h
        · exact Or.inl (by rw [charListLe, if_pos rfl]; exact h)
        · exact Or.inr (by rw [charListLe, if_pos rfl]; exact h)
      · rcases lt_or_gt_of_ne hxy with h | h
        · exact Or.inl (by rw [charListLe, if_neg hxy]; simpa using h)
        · exact Or.inr (by rw [charListLe, if_neg (Ne.symm hxy)]; simpa using h)

theorem charListLe_trans : ∀ a b c : List Char,
    charListLe a b = true → charListLe b c = true → charListLe a c = true := by
  intro a
  induction a with
  | nil => intro b c _ _; rfl
  | cons x xs ih =>
    intro b c hab hbc
    cases b with
    | nil => exact absurd hab (by rw [charListLe]; simp)
    | cons y ys =>
      cases c with
      | nil => exact absurd hbc (by rw [charListLe]; simp)
      | cons z zs =>
        rw [charListLe] at hab hbc ⊢
        by_cases hxy : x = y
        · subst hxy
          rw [if_pos rfl] at hab
          by_cases hyz : x = z
          · subst hyz
            rw [if_pos rfl] at hbc ⊢
            exact ih ys zs hab hbc
          · rw [if_neg hyz] at hbc ⊢
            exact hbc
        · rw [if_neg hxy] at hab
          have hlt : x < y := by simpa using hab
          by_cases hyz : y = z
          · subst hyz
            rw [if_neg hxy]
            simpa using hlt
          · rw [if_neg hyz] at hbc
            have hlt2 : y < z := by simpa using hbc
            have hxz : x ≠ z := ne_of_lt (lt_trans hlt hlt2)
            rw [if_neg hxz]
            simpa using lt_trans hlt hlt2

theorem fdLe_total : ∀ a b : FileDue, fdLe a b = true ∨ fdLe b a = true :=
  fun a b => charListLe_total (posix a.1).toList (posix b.1).toList

theorem fdLe_trans : ∀ a b c : FileDue,
    fdLe a b = true → fdLe b c = true → fdLe a c = true :=
  fun a b c => charListLe_trans (posix a.1).toList (posix b.1).toList (posix c.1).toList

/-! ### Looking up a date in the returned alert mapping -/

theorem lookupDate_upcoming (svc : Service) (asOf w : Int) (fs : FS) (d : Int) :
    lookupDate (upcomingAlerts svc asOf w fs) d
      = (lookupDate (buildSchedule (registrations svc asOf w fs)) d).map
          (fun folders => folders.map (fun fo => mkAlert asOf d fo.1 fo.2)) := by
  rw [upcomingAlerts]
  generalize buildSchedule (registrations svc asOf w fs) = m
  induction m with
  | nil => rfl
  | cons kv rest ih =>
    obtain ⟨k, v⟩ := kv
    by_cases hk : k = d
    · subst hk
      simp [lookupDate]
    · simp [lookupDate, hk, ih]

/-- Shared scaffolding for the alert-level claims: if `d` maps to `alerts`,
then `alerts` is the alert image of a schedule folder list with
duplicate-free keys, and each folder's file/due list is exactly the
registration group of that date and folder. -/
theorem alerts_structure (svc : Service) (asOf w : Int) (fs : FS) (d : Int)
    (alerts : List Alert)
    (hd : lookupDate (upcomingAlerts svc asOf w fs) d = some alerts) :
    ∃ folders,
      lookupDate (buildSchedule (registrations svc asOf w fs)) d = some folders
      ∧ alerts = folders.map (fun fo => mkAlert asOf d fo.1 fo.2)
      ∧ (folders.map Prod.fst).Nodup
      ∧ ∀ fo ∈ folders, fo.2 = groupRegs (registrations svc asOf w fs) d fo.1 := by
  rw [lookupDate_upcoming] at hd
  obtain ⟨folders, hlook, hmap⟩ := Option.map_eq_some'.mp hd
  have hmem_sch : (d, folders) ∈ buildSchedule (registrations svc asOf w fs) :=
    mem_of_lookupDate_some _ _ _ hlook
  have hnodup : (folders.map Prod.fst).Nodup :=
    (schKeysNodup_buildSchedule (registrations svc asOf w fs)).2 (d, folders) hmem_sch
  refine ⟨folders, hlook, hmap.symm, hnodup, ?_⟩
  intro fo hfo
  have hlookf : lookupFolder folders fo.1 = some fo.2 :=
    lookupFolder_of_mem folders fo.1 fo.2 hnodup (by simpa using hfo)
  have h1 : lookupGroup (buildSchedule (registrations svc asOf w fs)) d fo.1 = fo.2 := by
    rw [lookupGroup, hlook]
    show (lookupFolder folders fo.1).getD [] = fo.2
    rw [hlookf]
    rfl
  rw [← h1, lookupGroup_buildSchedule]

/-! ### Path prefix order -/

theorem leads_length {p q : List String} (h : leads p q) : p.length ≤ q.length := by
  have hl := congrArg List.length h
  rw [List.length_take] at hl
  omega

theorem leads_strict_length {p q : List String} (h : leads p q) (hne : p ≠ q) :
    p.length < q.length := by
  rcases Nat.lt_or_ge p.length q.length with hlt | hge
  · exact hlt
  · exfalso
    have : q.take p.length = q := List.take_of_length_le hge
    rw [leads, this] at h
    exact hne h.symm

theorem leads_refl (p : List String) : leads p p := by
  rw [leads]
  exact List.take_of_length_le (le_refl _)

theorem leads_append (p q : List String) : leads p (p ++ q) := by
  rw [leads]
  exact List.take_left p q

theorem leads_iff_append {p q : List String} : leads p q ↔ ∃ r, q = p ++ r := by
  constructor
  · intro h
    rw [leads] at h
    refine ⟨q.drop p.length, ?_⟩
    conv_lhs => rw [← List.take_append_drop p.length q]
    rw [h]
  · rintro ⟨r, rfl⟩
    exact leads_append p r

theorem leads_trans {a b c : List String} (h1 : leads a b) (h2 : leads b c) :
    leads a c := by
  obtain ⟨r1, rfl⟩ := leads_iff_append.mp h1
  obtain ⟨r2, rfl⟩ := leads_iff_append.mp h2
  rw [List.append_assoc]
  exact leads_append a (r1 ++ r2)

/-- Two prefixes of the same path are comparable. -/
theorem leads_comparable {a b c : List String} (h1 : leads a c) (h2 : leads b c) :
    leads a b ∨ leads b a := by
  rcases le_total a.length b.length with h | h
  · left
    rw [leads] at h1 h2 ⊢
    rw [← h2, List.take_take, min_eq_left h]
    exact h1
  · right
    rw [leads] at h1 h2 ⊢
    rw [← h1, List.take_take, min_eq_left h]
    exact h2

theorem dropLast_concat_getLastD {l : List String} (h : l ≠ []) (d : String) :
    l.dropLast ++ [l.getLastD d] = l := by
  rcases List.eq_nil_or_concat l with rfl | ⟨L, b, rfl⟩
  · exact absurd rfl h
  · rw [List.concat_eq_append, List.dropLast_concat, List.getLastD_concat]

/-! ### The disposal sequence -/

theorem depthGe_total : ∀ a b : AbsPath × RelPath × Int,
    depthGe a b = true ∨ depthGe b a = true := by
  intro a b
  rw [depthGe, depthGe]
  rcases le_total a.2.1.length b.2.1.length with h | h
  · exact Or.inr (by simpa using h)
  · exact Or.inl (by simpa using h)

theorem depthGe_trans : ∀ a b c : AbsPath × RelPath × Int,
    depthGe a b = true → depthGe b c = true → depthGe a c = true := by
  intro a b c hab hbc
  rw [depthGe] at hab hbc ⊢
  simp only [decide_eq_true_eq] at hab hbc ⊢
  omega

theorem runEntries_eq_runDisposals (svc : Service) (rule : FolderRule) (asOf now : Int) :
    ∀ (l : List (AbsPath × RelPath × Int)) (fs : FS),
      runEntries svc rule asOf now fs l
        = runDisposals svc rule now fs (l.filter (shouldDispose rule asOf)) := by
  intro l
  induction l with
  | nil => intro fs; rfl
  | cons t rest ih =>
    intro fs
    obtain ⟨src, rel, m⟩ := t
    rw [runEntries, List.filter_cons]
    by_cases h1 : isExempt rule rel = true
    · have hp : shouldDispose rule asOf (src, rel, m) = false := by
        simp [shouldDispose, h1]
      rw [if_pos h1, hp]
      simp only [Bool.false_eq_true, if_false]
      exact ih fs
    · rw [if_neg h1]
      by_cases h2 : (effectivePolicy rule rel).1 ≤ asOf - m
      · have hp : shouldDispose rule asOf (src, rel, m) = true := by
          simp [shouldDispose, h1, h2]
        rw [if_pos h2, hp]
        simp only [if_true]
        rw [runDisposals]
        simp only [ih]
      · have hp : shouldDispose rule asOf (src, rel, m) = false := by
          simp [shouldDispose, h2]
        rw [if_neg h2, hp]
        simp only [Bool.false_eq_true, if_false]
        exact ih fs

/-! ### Trash-move lemmas -/

theorem moveToTrash_eq (fs : FS) (now : Int) (td : AbsPath) (rule : FolderRule)
    (src : AbsPath) (rel : RelPath) :
    moveToTrash fs now td rule src rel
      = (subtreeMove (mkdirs fs now (trashBase td rule rel).dropLast) src
          (if pathExists (mkdirs fs now (trashBase td rule rel).dropLast)
              (trashBase td rule rel)
            then stamped (trashBase td rule rel) now else trashBase td rule rel),
         if pathExists (mkdirs fs now (trashBase td rule rel).dropLast)
              (trashBase td rule rel)
            then stamped (trashBase td rule rel) now else trashBase td rule rel) := rfl

theorem mkdirs_mem {fs : FS} {now : Int} {dir : AbsPath} {e : FSEntry}
    (he : e ∈ fs.entries) : e ∈ (mkdirs fs now dir).entries :=
  List.mem_append_left _ he

theorem mkdirs_mem_cases {fs : FS} {now : Int} {dir : AbsPath} {e : FSEntry}
    (he : e ∈ (mkdirs fs now dir).entries) :
    e ∈ fs.entries ∨ ∃ i, i < dir.length ∧ e = ⟨dir.take (i + 1), now, true⟩ := by
  rcases List.mem_append.mp he with h | h
  · exact Or.inl h
  · right
    obtain ⟨i, hi, hsome⟩ := List.mem_filterMap.mp h
    refine ⟨i, List.mem_range.mp hi, ?_⟩
    by_cases hq : pathExists fs (dir.take (i + 1)) = true
    · rw [if_pos hq] at hsome
      exact absurd hsome (by simp)
    · rw [if_neg hq] at hsome
      exact (Option.some_inj.mp hsome).symm

theorem mkdirs_exists_prefix (fs : FS) (now : Int) (dir : AbsPath) (k : Nat)
    (h : k < dir.length) : pathExists (mkdirs fs now dir) (dir.take (k + 1)) = true := by
  rw [pathExists]
  simp only [mkdirs]
  rw [List.any_append]
  by_cases hq : pathExists fs (dir.take (k + 1)) = true
  · rw [pathExists] at hq
    rw [hq, Bool.true_or]
  · have hmem : FSEntry.mk (dir.take (k + 1)) now true ∈
        (List.range dir.length).filterMap (fun i =>
          if pathExists fs (dir.take (i + 1)) then none
          else some (FSEntry.mk (dir.take (i + 1)) now true)) := by
      apply List.mem_filterMap.mpr
      refine ⟨k, List.mem_range.mpr h, ?_⟩
      rw [if_neg hq]
    have hany : ((List.range dir.length).filterMap (fun i =>
          if pathExists fs (dir.take (i + 1)) then none
          else some (FSEntry.mk (dir.take (i + 1)) now true))).any
        (fun e => decide (e.path = dir.take (k + 1))) = true :=
      List.any_eq_true.mpr ⟨FSEntry.mk (dir.take (k + 1)) now true, hmem, by simp⟩
    rw [hany, Bool.or_true]

theorem subtreeMove_mem_root {fs : FS} {src dst : AbsPath} {m : Int} {d : Bool}
    (h : FSEntry.mk src m d ∈ fs.entries) :
    FSEntry.mk dst m d ∈ (subtreeMove fs src dst).entries := by
  rw [subtreeMove]
  apply List.mem_map.mpr
  refine ⟨⟨src, m, d⟩, h, ?_⟩
  rw [if_pos (leads_refl src)]
  simp [List.drop_length]

theorem subtreeMove_mem_untouched {fs : FS} {src dst : AbsPath} {e : FSEntry}
    (he : e ∈ fs.entries) (h : ¬ leads src e.path) :
    e ∈ (subtreeMove fs src dst).entries := by
  rw [subtreeMove]
  apply List.mem_map.mpr
  exact ⟨e, he, if_neg h⟩

theorem trashBase_ne_nil (td : AbsPath) (rule : FolderRule) (rel : RelPath) :
    trashBase td rule rel ≠ [] := by
  rw [trashBase]
  simp

theorem leads_td_trashBase (td : AbsPath) (rule : FolderRule) (rel : RelPath) :
    leads td (trashBase td rule rel) := by
  rw [trashBase, List.append_assoc]
  exact leads_append _ _

theorem stamped_ne_base {base : AbsPath} (h : base ≠ []) (now : Int) :
    stamped base now ≠ base := by
  intro heq
  rw [stamped] at heq
  conv_rhs at heq => rw [← dropLast_concat_getLastD h ""]
  have h1 := List.append_cancel_left heq
  have hs : base.getLastD "" ++ "__" ++ tsName now = base.getLastD "" := by
    simpa using h1
  have hlen := congrArg String.length hs
  rw [String.length_append, String.length_append] at hlen
  have h2 : ("__" : String).length = 2 := by decide
  omega

theorem pathExists_mkdirs_trashBase_false (fs : FS) (now : Int) (td : AbsPath)
    (rule : FolderRule) (rel : RelPath)
    (h0 : ∀ e ∈ fs.entries, ¬ leads td e.path) :
    pathExists (mkdirs fs now (trashBase td rule rel).dropLast)
      (trashBase td rule rel) = false := by
  rw [pathExists]
  apply List.any_eq_false.mpr
  intro e he
  simp only [decide_eq_true_eq]
  intro hep
  rcases mkdirs_mem_cases he with hfs | ⟨i, hi, rfl⟩
  · exact h0 e hfs (hep ▸ leads_td_trashBase td rule rel)
  · have hlen := congrArg List.length hep
    rw [List.length_take, List.length_dropLast] at hlen
    rw [List.length_dropLast] at hi
    have hbl : 0 < (trashBase td rule rel).length :=
      List.length_pos.mpr (trashBase_ne_nil td rule rel)
    have hmin : min (i + 1) ((trashBase td rule rel).length - 1) = i + 1 :=
      min_eq_left (by omega)
    rw [hmin] at hlen
    omega

/-! ### Idempotence machinery -/

theorem leads_take (l : List String) (n : Nat) : leads (l.take n) l := by
  rw [leads, List.length_take]
  rcases le_total n l.length with h | h
  · rw [min_eq_left h]
  · rw [min_eq_right h, List.take_length, List.take_of_length_le h]

theorem leads_dropLast (l : List String) : leads l.dropLast l := by
  rw [List.dropLast_eq_take]
  exact leads_take l _

theorem leads_take_of_leads {p q : List String} (h : leads p q) {n : Nat}
    (hn : p.length ≤ n) : leads p (q.take n) := by
  rw [leads] at h ⊢
  rw [List.take_take, min_eq_left hn]
  exact h

theorem trashSafe_sysTrash {svc : Service} (hts : trashSafe svc) :
    ∀ r ∈ svc.rules, incomparable r.path svc.sysTrash :=
  hts svc.sysTrash (List.mem_cons_self _ _)

theorem trashSafe_trashDir {svc : Service} (hts : trashSafe svc) {td : AbsPath}
    (h : svc.trashDir = some td) : ∀ r ∈ svc.rules, incomparable r.path td := by
  apply hts
  rw [trashRoots, h]
  simp

theorem removeSubtree_spec (fs : FS) (p : AbsPath) :
    ∀ e ∈ (removeSubtree fs p).entries, e ∈ fs.entries ∧ ¬ leads p e.path := by
  intro e he
  rw [removeSubtree] at he
  have h := List.mem_filter.mp he
  exact ⟨h.1, by simpa using h.2⟩

/-- Every entry of the filesystem after a trash move into an area whose root
`td` is incomparable with every rule root either already existed or lies
below no rule root, and in either case no longer lies at or below the moved
source. -/
theorem trashArea_entries_spec (svc : Service) (rule : FolderRule) (now : Int)
    (fs : FS) (src base T td : AbsPath)
    (hic : ∀ r ∈ svc.rules, incomparable r.path td)
    (hr : rule ∈ svc.rules) (hsrc : strictUnder rule.path src)
    (htdbase : leads td base) (htdT : leads td T) :
    ∀ e ∈ (subtreeMove (mkdirs fs now base.dropLast) src T).entries,
      (e ∈ fs.entries ∨ outsideRoots svc e.path) ∧ ¬ leads src e.path := by
  have hnoBoth : ∀ p : AbsPath, leads src p → leads td p → False := by
    intro p h1 h2
    rcases leads_comparable h1 h2 with h | h
    · exact (hic rule hr).1 (leads_trans hsrc.1 h)
    · rcases leads_comparable hsrc.1 h with h' | h'
      · exact (hic rule hr).1 h'
      · exact (hic rule hr).2 h'
  have houtside : ∀ p : AbsPath, leads td p → outsideRoots svc p := by
    intro p htp r hrr hcon
    rcases leads_comparable hcon htp with h | h
    · exact (hic r hrr).1 h
    · exact (hic r hrr).2 h
  intro e he
  rw [subtreeMove] at he
  obtain ⟨e0, he0, heq⟩ := List.mem_map.mp he
  by_cases hb : leads src e0.path
  · rw [if_pos hb] at heq
    have hpath : e.path = T ++ e0.path.drop src.length := by rw [← heq]
    have hTe : leads td e.path := by
      rw [hpath]
      exact leads_trans htdT (leads_append _ _)
    exact ⟨Or.inr (houtside _ hTe), fun hl => hnoBoth _ hl hTe⟩
  · rw [if_neg hb] at heq
    subst heq
    rcases mkdirs_mem_cases he0 with hfs | ⟨i, hi, hei⟩
    · exact ⟨Or.inl hfs, hb⟩
    · have hlead : leads e0.path base := by
        rw [hei]
        exact leads_trans (leads_take _ _) (leads_dropLast _)
      refine ⟨Or.inr ?_, hb⟩
      intro r hrr hcon
      rcases leads_comparable (leads_trans hcon hlead) htdbase with h | h
      · exact (hic r hrr).1 h
      · exact (hic r hrr).2 h

theorem moveToTrash_entries_spec (svc : Service) (rule : FolderRule) (now : Int)
    (fs : FS) (src : AbsPath) (rel : RelPath) (td : AbsPath)
    (hic : ∀ r ∈ svc.rules, incomparable r.path td)
    (hr : rule ∈ svc.rules) (hsrc : strictUnder rule.path src) :
    ∀ e ∈ (moveToTrash fs now td rule src rel).1.entries,
      (e ∈ fs.entries ∨ outsideRoots svc e.path) ∧ ¬ leads src e.path := by
  intro e he
  have hlenb : td.length + 1 ≤ (trashBase td rule rel).length := by
    rw [trashBase]
    simp only [List.length_append, List.length_cons, List.length_nil]
    omega
  have htdT : leads td (if pathExists (mkdirs fs now (trashBase td rule rel).dropLast)
      (trashBase td rule rel) = true then stamped (trashBase td rule rel) now
      else trashBase td rule rel) := by
    by_cases hp : pathExists (mkdirs fs now (trashBase td rule rel).dropLast)
        (trashBase td rule rel) = true
    · rw [if_pos hp, stamped]
      refine leads_trans ?_ (leads_append _ _)
      rw [List.dropLast_eq_take]
      exact leads_take_of_leads (leads_td_trashBase td rule rel) (by omega)
    · rw [if_neg hp]
      exact leads_td_trashBase td rule rel
  have he2 : e ∈ (subtreeMove (mkdirs fs now (trashBase td rule rel).dropLast) src
      (if pathExists (mkdirs fs now (trashBase td rule rel).dropLast)
          (trashBase td rule rel) = true
        then stamped (trashBase td rule rel) now else trashBase td rule rel)).entries := he
  exact trashArea_entries_spec svc rule now fs src (trashBase td rule rel) _ td hic hr hsrc
    (leads_td_trashBase td rule rel) htdT e he2

theorem dispose_entries_spec (svc : Service) (rule : FolderRule) (now : Int)
    (fs : FS) (src : AbsPath) (rel : RelPath) (act : String)
    (hts : trashSafe svc) (hr : rule ∈ svc.rules) (hsrc : strictUnder rule.path src) :
    ∀ e ∈ (dispose svc rule now fs src rel act).1.entries,
      (e ∈ fs.entries ∨ outsideRoots svc e.path) ∧ ¬ leads src e.path := by
  intro e he
  rw [dispose] at he
  by_cases h1 : act = "trash"
  · rw [if_pos h1] at he
    cases htd : svc.trashDir with
    | none =>
      rw [htd] at he
      have he2 : e ∈ (removeSubtree fs src).entries := he
      have h := removeSubtree_spec fs src e he2
      exact ⟨Or.inl h.1, h.2⟩
    | some td =>
      rw [htd] at he
      exact moveToTrash_entries_spec svc rule now fs src rel td
        (trashSafe_trashDir hts htd) hr hsrc e he
  · rw [if_neg h1] at he
    by_cases h2 : act = "system_trash"
    · rw [if_pos h2] at he
      exact moveToTrash_entries_spec svc rule now fs src rel svc.sysTrash
        (trashSafe_sysTrash hts) hr hsrc e he
    · rw [if_neg h2] at he
      have he2 : e ∈ (removeSubtree fs src).entries := he
      have h := removeSubtree_spec fs src e he2
      exact ⟨Or.inl h.1, h.2⟩

theorem runEntries_entries_spec (svc : Service) (rule : FolderRule) (asOf now : Int)
    (hts : trashSafe svc) (hr : rule ∈ svc.rules) :
    ∀ (l : List (AbsPath × RelPath × Int)) (fs : FS),
      (∀ t ∈ l, strictUnder rule.path t.1) →
      ∀ e ∈ (runEntries svc rule asOf now fs l).1.entries,
        e ∈ fs.entries ∨ outsideRoots svc e.path := by
  intro l
  induction l with
  | nil => intro fs _ e he; exact Or.inl he
  | cons t rest ih =>
    intro fs hl e he
    obtain ⟨src, rel, m⟩ := t
    rw [runEntries] at he
    by_cases hex : isExempt rule rel = true
    · rw [if_pos hex] at he
      exact ih fs (fun t ht => hl t (List.mem_cons_of_mem _ ht)) e he
    · rw [if_neg hex] at he
      by_cases hdue : (effectivePolicy rule rel).1 ≤ asOf - m
      · rw [if_pos hdue] at he
        have he2 : e ∈ (runEntries svc rule asOf now
            (dispose svc rule now fs src rel (effectivePolicy rule rel).2).1
            rest).1.entries := he
        rcases ih _ (fun t ht => hl t (List.mem_cons_of_mem _ ht)) e he2 with h | h
        · exact (dispose_entries_spec svc rule now fs src rel _ hts hr
            (hl _ (List.mem_cons_self _ _)) e h).1
        · exact Or.inr h
      · rw [if_neg hdue] at he
        exact ih fs (fun t ht => hl t (List.mem_cons_of_mem _ ht)) e he

/-- The central invariant of the amended idempotence claim: after the
per-entry loop finishes, every surviving entry strictly below the rule root
is exempt or not yet stale, provided every such entry was exempt-or-fresh
or still queued when the loop started. -/
theorem runEntries_retained (svc : Service) (rule : FolderRule) (asOf now : Int)
    (hts : trashSafe svc) (hr : rule ∈ svc.rules) :
    ∀ (l : List (AbsPath × RelPath × Int)) (fs : FS),
      (∀ t ∈ l, strictUnder rule.path t.1 ∧ t.2.1 = relOf rule.path t.1) →
      (∀ e ∈ fs.entries, strictUnder rule.path e.path →
        shouldDispose rule asOf (e.path, relOf rule.path e.path, e.mtime) = false
          ∨ (e.path, relOf rule.path e.path, e.mtime) ∈ l) →
      ∀ e ∈ (runEntries svc rule asOf now fs l).1.entries,
        strictUnder rule.path e.path →
        shouldDispose rule asOf (e.path, relOf rule.path e.path, e.mtime) = false := by
  intro l
  induction l with
  | nil =>
    intro fs _ hinv e he hu
    rcases hinv e he hu with h | h
    · exact h
    · exact absurd h (List.not_mem_nil _)
  | cons t rest ih =>
    intro fs hl hinv e he hu
    obtain ⟨src, rel, m⟩ := t
    obtain ⟨hsrcU, hrel⟩ := hl _ (List.mem_cons_self _ _)
    rw [runEntries] at he
    by_cases hex : isExempt rule rel = true
    · rw [if_pos hex] at he
      refine ih fs (fun t ht => hl t (List.mem_cons_of_mem _ ht)) ?_ e he hu
      intro e' he' hu'
      rcases hinv e' he' hu' with h | h
      · exact Or.inl h
      · rcases List.mem_cons.mp h with heq | h
        · left
          have h1 : e'.path = src ∧ relOf rule.path e'.path = rel ∧ e'.mtime = m := by
            simpa using heq
          simp [shouldDispose, h1.2.1, hex]
        · exact Or.inr h
    · rw [if_neg hex] at he
      by_cases hdue : (effectivePolicy rule rel).1 ≤ asOf - m
      · rw [if_pos hdue] at he
        have he2 : e ∈ (runEntries svc rule asOf now
            (dispose svc rule now fs src rel (effectivePolicy rule rel).2).1
            rest).1.entries := he
        refine ih _ (fun t ht => hl t (List.mem_cons_of_mem _ ht)) ?_ e he2 hu
        intro e' he' hu'
        obtain ⟨hmo, hnl⟩ :=
          dispose_entries_spec svc rule now fs src rel _ hts hr hsrcU e' he'
        rcases hmo with hmem | hout
        · rcases hinv e' hmem hu' with h | h
          · exact Or.inl h
          · rcases List.mem_cons.mp h with heq | h
            · exfalso
              have h1 : e'.path = src ∧ relOf rule.path e'.path = rel ∧ e'.mtime = m := by
                simpa using heq
              apply hnl
              rw [h1.1]
              exact leads_refl src
            · exact Or.inr h
        · exact absurd hu'.1 (hout rule hr)
      · rw [if_neg hdue] at he
        refine ih fs (fun t ht => hl t (List.mem_cons_of_mem _ ht)) ?_ e he hu
        intro e' he' hu'
        rcases hinv e' he' hu' with h | h
        · exact Or.inl h
        · rcases List.mem_cons.mp h with heq | h
          · left
            have h1 : e'.path = src ∧ relOf rule.path e'.path = rel ∧ e'.mtime = m := by
              simpa using heq
            simp [shouldDispose, h1.2.1, h1.2.2, hdue]
          · exact Or.inr h

theorem cleanupRule_entries_spec (svc : Service) (rule : FolderRule) (asOf now : Int)
    (hts : trashSafe svc) (hr : rule ∈ svc.rules) (fs : FS) :
    ∀ e ∈ (cleanupRule svc rule asOf now fs).1.entries,
      e ∈ fs.entries ∨ outsideRoots svc e.path := by
  intro e he
  rw [cleanupRule] at he
  by_cases ha : ruleActive fs rule = true
  · rw [if_pos ha] at he
    refine runEntries_entries_spec svc rule asOf now hts hr _ fs ?_ e he
    intro t ht
    have hc := (mem_sortByB depthGe (collect fs rule) t).mp ht
    rw [collect] at hc
    obtain ⟨e0, he0, rfl⟩ := List.mem_map.mp hc
    rw [entriesUnder] at he0
    have h2 := List.mem_filter.mp he0
    exact of_decide_eq_true h2.2
  · rw [if_neg ha] at he
    exact Or.inl he

theorem cleanupRule_retained (svc : Service) (rule : FolderRule) (asOf now : Int)
    (hts : trashSafe svc) (hr : rule ∈ svc.rules) (fs : FS)
    (ha : ruleActive fs rule = true) :
    ∀ e ∈ (cleanupRule svc rule asOf now fs).1.entries,
      strictUnder rule.path e.path →
      shouldDispose rule asOf (e.path, relOf rule.path e.path, e.mtime) = false := by
  intro e he hu
  rw [cleanupRule, if_pos ha] at he
  refine runEntries_retained svc rule asOf now hts hr _ fs ?_ ?_ e he hu
  · intro t ht
    have hc := (mem_sortByB depthGe (collect fs rule) t).mp ht
    rw [collect] at hc
    obtain ⟨e0, he0, rfl⟩ := List.mem_map.mp hc
    rw [entriesUnder] at he0
    have h2 := List.mem_filter.mp he0
    exact ⟨of_decide_eq_true h2.2, rfl⟩
  · intro e' he' hu'
    right
    apply (mem_sortByB depthGe (collect fs rule) _).mpr
    rw [collect]
    apply List.mem_map.mpr
    refine ⟨e', ?_, rfl⟩
    rw [entriesUnder]
    exact List.mem_filter.mpr ⟨he', decide_eq_true hu'⟩

theorem cleanupRules_entries_spec (svc : Service) (asOf now : Int) (hts : trashSafe svc) :
    ∀ (rs : List FolderRule) (fs : FS), (∀ r ∈ rs, r ∈ svc.rules) →
      ∀ e ∈ (cleanupRules svc asOf now fs rs).1.entries,
        e ∈ fs.entries ∨ outsideRoots svc e.path := by
  intro rs
  induction rs with
  | nil => intro fs _ e he; exact Or.inl he
  | cons r0 rest ih =>
    intro fs hsub e he
    have he2 : e ∈ (cleanupRules svc asOf now
        (cleanupRule svc r0 asOf now fs).1 rest).1.entries := he
    rcases ih _ (fun r hr => hsub r (List.mem_cons_of_mem _ hr)) e he2 with h | h
    · exact cleanupRule_entries_spec svc r0 asOf now hts
        (hsub r0 (List.mem_cons_self _ _)) fs e h
    · exact Or.inr h

/-- A rule root present and a directory after a cleanup pass was already so
before it: passes create paths only outside every rule root. -/
theorem ruleActive_of_subset (svc : Service) {fs fs' : FS}
    (h : ∀ e ∈ fs'.entries, e ∈ fs.entries ∨ outsideRoots svc e.path)
    {r : FolderRule} (hrsvc : r ∈ svc.rules) (hact : ruleActive fs' r = true) :
    ruleActive fs r = true := by
  obtain ⟨hex, hdir⟩ : pathExists fs' r.path = true ∧ isDirAt fs' r.path = true := by
    simpa [ruleActive] using hact
  have h1 : pathExists fs r.path = true := by
    rw [pathExists] at hex ⊢
    obtain ⟨e, he, hp⟩ := List.any_eq_true.mp hex
    have hp' : e.path = r.path := of_decide_eq_true hp
    rcases h e he with hm | hout
    · exact List.any_eq_true.mpr ⟨e, hm, hp⟩
    · exfalso
      apply hout r hrsvc
      rw [hp']
      exact leads_refl _
  have h2 : isDirAt fs r.path = true := by
    rw [isDirAt] at hdir ⊢
    obtain ⟨e, he, hp⟩ := List.any_eq_true.mp hdir
    obtain ⟨hpe, _⟩ : decide (e.path = r.path) = true ∧ e.isDir = true := by
      simpa using hp
    have hp' : e.path = r.path := of_decide_eq_true hpe
    rcases h e he with hm | hout
    · exact List.any_eq_true.mpr ⟨e, hm, hp⟩
    · exfalso
      apply hout r hrsvc
      rw [hp']
      exact leads_refl _
  rw [ruleActive, h1, h2]
  rfl

/-- After the whole rule loop, for every rule whose root is still an
existing directory, every surviving entry below that root is exempt or not
yet stale. -/
theorem cleanupRules_retained (svc : Service) (asOf now : Int) (hts : trashSafe svc) :
    ∀ (rs : List FolderRule) (fs : FS), (∀ r ∈ rs, r ∈ svc.rules) →
      ∀ r ∈ rs, ruleActive (cleanupRules svc asOf now fs rs).1 r = true →
        ∀ e ∈ (cleanupRules svc asOf now fs rs).1.entries,
          strictUnder r.path e.path →
          shouldDispose r asOf (e.path, relOf r.path e.path, e.mtime) = false := by
  intro rs
  induction rs with
  | nil => intro fs _ r hr; exact absurd hr (List.not_mem_nil _)
  | cons r0 rest ih =>
    intro fs hsub r hr hact e he hu
    have hsubrest : ∀ r' ∈ rest, r' ∈ svc.rules :=
      fun r' h' => hsub r' (List.mem_cons_of_mem _ h')
    have hact2 : ruleActive (cleanupRules svc asOf now
        (cleanupRule svc r0 asOf now fs).1 rest).1 r = true := hact
    have he2 : e ∈ (cleanupRules svc asOf now
        (cleanupRule svc r0 asOf now fs).1 rest).1.entries := he
    rcases List.mem_cons.mp hr with rfl | hr'
    · have hr0 : r ∈ svc.rules := hsub r (List.mem_cons_self _ _)
      have hchain : ∀ e' ∈ (cleanupRules svc asOf now
          (cleanupRule svc r asOf now fs).1 rest).1.entries,
          e' ∈ fs.entries ∨ outsideRoots svc e'.path := by
        intro e' he'
        rcases cleanupRules_entries_spec svc asOf now hts rest _ hsubrest e' he' with h | h
        · exact cleanupRule_entries_spec svc r asOf now hts hr0 fs e' h
        · exact Or.inr h
      have hact0 : ruleActive fs r = true :=
        ruleActive_of_subset svc hchain hr0 hact2
      rcases cleanupRules_entries_spec svc asOf now hts rest _ hsubrest e he2 with h | h
      · exact cleanupRule_retained svc r asOf now hts hr0 fs hact0 e h hu
      · exact absurd hu.1 (h r hr0)
    · exact ih _ hsubrest r hr' hact2 e he2 hu

theorem runEntries_skip (svc : Service) (rule : FolderRule) (asOf now : Int) :
    ∀ (l : List (AbsPath × RelPath × Int)) (fs : FS),
      (∀ t ∈ l, shouldDispose rule asOf t = false) →
      runEntries svc rule asOf now fs l = (fs, []) := by
  intro l
  induction l with
  | nil => intro fs _; rfl
  | cons t rest ih =>
    intro fs hl
    obtain ⟨src, rel, m⟩ := t
    have h0 := hl _ (List.mem_cons_self _ _)
    rw [runEntries]
    by_cases hex : isExempt rule rel = true
    · rw [if_pos hex]
      exact ih fs (fun t ht => hl t (List.mem_cons_of_mem _ ht))
    · rw [if_neg hex]
      have hexf : isExempt rule rel = false := by simpa using hex
      have hd : ¬ ((effectivePolicy rule rel).1 ≤ asOf - m) := by
        simp [shouldDispose, hexf] at h0
        omega
      rw [if_neg hd]
      exact ih fs (fun t ht => hl t (List.mem_cons_of_mem _ ht))

theorem cleanupRule_skip (svc : Service) (rule : FolderRule) (asOf now : Int) (fs : FS)
    (h : ruleActive fs rule = true → ∀ e ∈ fs.entries, strictUnder rule.path e.path →
      shouldDispose rule asOf (e.path, relOf rule.path e.path, e.mtime) = false) :
    cleanupRule svc rule asOf now fs = (fs, []) := by
  rw [cleanupRule]
  by_cases ha : ruleActive fs rule = true
  · rw [if_pos ha]
    apply runEntries_skip
    intro t ht
    have hc := (mem_sortByB depthGe (collect fs rule) t).mp ht
    rw [collect] at hc
    obtain ⟨e0, he0, rfl⟩ := List.mem_map.mp hc
    rw [entriesUnder] at he0
    have h2 := List.mem_filter.mp he0
    exact h ha e0 h2.1 (of_decide_eq_true h2.2)
  · rw [if_neg ha]

theorem cleanupRules_skip (svc : Service) (asOf now : Int) :
    ∀ (rs : List FolderRule) (fs : FS),
      (∀ r ∈ rs, ruleActive fs r = true → ∀ e ∈ fs.entries, strictUnder r.path e.path →
        shouldDispose r asOf (e.path, relOf r.path e.path, e.mtime) = false) →
      cleanupRules svc asOf now fs rs = (fs, []) := by
  intro rs
  induction rs with
  | nil => intro fs _; rfl
  | cons r0 rest ih =>
    intro fs h
    have h0 : cleanupRule svc r0 asOf now fs = (fs, []) :=
      cleanupRule_skip svc r0 asOf now fs (h r0 (List.mem_cons_self _ _))
    have h1 : cleanupRules svc asOf now (cleanupRule svc r0 asOf now fs).1 rest
        = (fs, []) := by
      rw [h0]
      exact ih fs (fun r hr => h r (List.mem_cons_of_mem _ hr))
    show ((cleanupRules svc asOf now (cleanupRule svc r0 asOf now fs).1 rest).1,
          (cleanupRule svc r0 asOf now fs).2
            ++ (cleanupRules svc asOf now (cleanupRule svc r0 asOf now fs).1 rest).2)
        = (fs, [])
    rw [h1, h0]
    rfl

/-! ## Claims -/

/-- C2: for every entry under a FolderRule, the effective retention/action
(and the effective notify-before set) are those of the first PatternRule, in
declared pattern order, whose regex matches the entry's base name — with
anchored-prefix (`re.match`) semantics, witnessed by the fact that for a
`^`-anchored literal pattern a match is exactly a prefix of the name; if no
pattern matches, the FolderRule's own retention, action and lead-times
apply; a matching pattern's notify-before set entirely replaces the
FolderRule's lead-times (the result is the pattern's list, never a merge). -/
theorem C2_first_match_policy (rule : FolderRule) (rel : RelPath) :
    (∀ i, (h : i < rule.patterns.length) →
      reMatch (rule.patterns.get ⟨i, h⟩).pattern (relName rel) = true →
      (∀ j, (hj : j < i) →
        reMatch (rule.patterns.get ⟨j, Nat.lt_trans hj h⟩).pattern (relName rel) = false) →
      effectivePolicy rule rel
          = ((rule.patterns.get ⟨i, h⟩).retention, (rule.patterns.get ⟨i, h⟩).action)
        ∧ effectiveNotify rule rel = (rule.patterns.get ⟨i, h⟩).notifyBefore)
    ∧ ((∀ pr ∈ rule.patterns, reMatch pr.pattern (relName rel) = false) →
        effectivePolicy rule rel = (rule.retention, rule.action)
        ∧ effectiveNotify rule rel = rule.notifyBefore)
    ∧ (∀ pat s : String, litPattern pat →
        (reMatch ("^" ++ pat) s = true ↔ s.toList.take pat.toList.length = pat.toList)) := by
  refine ⟨?_, ?_, ?_⟩
  · intro i h hm hb
    have hf := findPattern_of_first h hm hb
    rw [effectivePolicy, effectiveNotify, hf]
    exact ⟨rfl, rfl⟩
  · intro hall
    have hf := findPattern_of_all_false hall
    rw [effectivePolicy, effectiveNotify, hf]
    exact ⟨rfl, rfl⟩
  · intro pat s hp
    exact reMatch_caret_literal pat s hp

/-- Witness for C2 at a concrete rule: the second pattern is the first to
match `ScreenShot_1.png`, so its retention, action and lead-times apply. -/
theorem C2_witness :
    effectivePolicy c2Rule ["ScreenShot_1.png"] = (86400, "delete")
    ∧ effectiveNotify c2Rule ["ScreenShot_1.png"] = [3600] := by
  have h1 : (1 : Nat) < c2Rule.patterns.length := by decide
  refine (C2_first_match_policy c2Rule ["ScreenShot_1.png"]).1 1 h1 ?_ ?_
  · show reMatch "^ScreenShot" "ScreenShot_1.png" = true
    decide
  · intro j hj
    have hj0 : j = 0 := by omega
    subst hj0
    show reMatch "^zz" "ScreenShot_1.png" = false
    decide

/-- C3 counterexample: `config._parse_duration` does not reject every
invalid input — the negative number `-5` parses to minus five days, the
boolean `True` falls into the numeric branch and parses to one day, and the
string `" 5d "` (which matches neither `^\d+[hdwy]$` nor `^\d+$` because of
the surrounding whitespace) is accepted by `service._parse_offset` after
normalization instead of raising. -/
theorem C3_counterexample :
    parseDuration (PyVal.int (-5)) = Except.ok (-432000)
    ∧ parseDuration (PyVal.boolean true) = Except.ok 86400
    ∧ parseOffset (PyVal.str " 5d ") = Except.ok 432000 :=
  ⟨rfl, rfl, rfl⟩

/-- C3 (amended): `service._parse_offset` raises for every negative number
or negative timedelta, for every boolean (excluded explicitly before the
numeric branch), and for every string whose stripped lowercased form
matches neither `^\d+[hdwy]$` nor `^\d+$`; `config._parse_duration` raises
only for such non-matching strings — it accepts negative numbers unchanged
and accepts booleans through the numeric branch. -/
theorem C3_amended :
    (∀ n : Int, n < 0 →
      parseOffset (PyVal.int n) = Except.error "notify_before values must be >= 0")
    ∧ (∀ s : Int, s < 0 →
      parseOffset (PyVal.td s) = Except.error "notify_before values must be >= 0")
    ∧ (∀ b : Bool,
      parseOffset (PyVal.boolean b) = Except.error "notify_before values must be >= 0")
    ∧ (∀ s : String, ¬ durationShape (normText s) →
      parseOffset (PyVal.str s)
        = Except.error "notify_before string must look like '5d', '12h', or '1y'")
    ∧ (∀ s : String, ¬ durationShape (normText s) →
      parseDuration (PyVal.str s)
        = Except.error "retention_time must be like '5d', '12h', '1y'")
    ∧ parseDuration (PyVal.int (-5)) = Except.ok (-432000)
    ∧ parseDuration (PyVal.boolean true) = Except.ok 86400 := by
  refine ⟨?_, ?_, ?_, ?_, ?_, rfl, rfl⟩
  · intro n hn
    rw [parseOffset, if_pos hn]
  · intro s hs
    rw [parseOffset, if_pos hs]
  · intro b
    rfl
  · intro s hs
    have hnone := (matchDuration_eq_none_iff (normText s)).mpr hs
    rw [parseOffset, parseDurationText, hnone]
  · intro s hs
    have hnone := (matchDuration_eq_none_iff (normText s)).mpr hs
    rw [parseDuration, parseDurationText, hnone]

/-- Witness for C3 (amended) at concrete inputs. -/
theorem C3_witness :
    parseOffset (PyVal.int (-3)) = Except.error "notify_before values must be >= 0"
    ∧ parseOffset (PyVal.str "nope")
        = Except.error "notify_before string must look like '5d', '12h', or '1y'"
    ∧ parseDuration (PyVal.str "5dd")
        = Except.error "retention_time must be like '5d', '12h', '1y'" :=
  ⟨C3_amended.1 (-3) (by norm_num),
   C3_amended.2.2.2.1 "nope" ((matchDuration_eq_none_iff _).mp (by decide)),
   C3_amended.2.2.2.2.1 "5dd" ((matchDuration_eq_none_iff _).mp (by decide))⟩

/-- C6 counterexample: the claim reads exemption clause (c) — final path
component equal to the entry's base name — as applying to any exemption
string, but `_is_exempt` `continue`s past clauses (b) and (c) for an
absolute exemption.  With the single exemption `/anywhere/keep.log` the
entry `keep.log` satisfies the claim's predicate yet is not exempt. -/
theorem C6_counterexample :
    isExempt c6Rule ["keep.log"] = false
    ∧ specIsExempt c6Rule ["keep.log"] = true := by
  exact ⟨by decide, by decide⟩

/-- C6 (amended): an entry is exempt if and only if some exemption path of
its rule either (a) is absolute and equals the entry's relative path
exactly, or — only when the exemption is relative — (b) is a component-wise
path-prefix of the entry's relative path or (c) has a final path component
equal to the entry's base name; in particular a bare-filename exemption
suppresses every entry with that base name at any depth. -/
theorem C6_exemption_characterization (rule : FolderRule) (rel : RelPath) :
    (isExempt rule rel = true ↔
      ∃ ex ∈ rule.exemptions,
        (ex.isRoot = true ∧ PurePath.mk false rel = ex) ∨
        (ex.isRoot = false ∧
          (rel.take ex.comps.length = ex.comps ∨
            (pname ex ≠ "" ∧ pname ex = relName rel))))
    ∧ (∀ n : String, n ≠ "" → PurePath.mk false [n] ∈ rule.exemptions →
        relName rel = n → isExempt rule rel = true) := by
  have h1 : isExempt rule rel = true ↔
      ∃ ex ∈ rule.exemptions,
        (ex.isRoot = true ∧ PurePath.mk false rel = ex) ∨
        (ex.isRoot = false ∧
          (rel.take ex.comps.length = ex.comps ∨
            (pname ex ≠ "" ∧ pname ex = relName rel))) := by
    rw [isExempt, List.any_eq_true]
    constructor
    · rintro ⟨ex, hmem, hx⟩
      exact ⟨ex, hmem, (exemptMatches_iff rel ex).mp hx⟩
    · rintro ⟨ex, hmem, hx⟩
      exact ⟨ex, hmem, (exemptMatches_iff rel ex).mpr hx⟩
  refine ⟨h1, ?_⟩
  intro n hne hmem hname
  refine h1.mpr ⟨⟨false, [n]⟩, hmem, Or.inr ⟨rfl, Or.inr ⟨?_, ?_⟩⟩⟩
  · show List.getLastD [n] "" ≠ ""
    simpa using hne
  · show List.getLastD [n] "" = relName rel
    simpa using hname.symm

/-- Witness for C6 (amended): the bare-filename exemption `keep.log`
exempts the nested entry `sub/keep.log`. -/
theorem C6_witness : isExempt c6bRule ["sub", "keep.log"] = true :=
  (C6_exemption_characterization c6bRule ["sub", "keep.log"]).2 "keep.log"
    (by decide) (by decide) (by decide)

/-- C10: an absolute exemption string never exempts any entry — the
relative paths produced by traversal are relative, so the absolute-equality
test never fires — and extending every rule's exemptions with absolute
paths changes the result of neither `cleanup` nor `upcoming_alerts`. -/
theorem C10_absolute_exemptions_inert (svc : Service) (asOf w now : Int) (fs : FS)
    (axs : FolderRule → List PurePath) (hax : ∀ r, ∀ p ∈ axs r, p.isRoot = true) :
    (∀ (rel : RelPath) (p : PurePath), p.isRoot = true → exemptMatches rel p = false)
    ∧ cleanup (extendEx svc axs) asOf now fs = cleanup svc asOf now fs
    ∧ upcomingAlerts (extendEx svc axs) asOf w fs = upcomingAlerts svc asOf w fs := by
  refine ⟨fun rel p hp => exemptMatches_absolute rel p hp, ?_, ?_⟩
  · rw [cleanup, cleanup]
    show cleanupRules (extendEx svc axs) asOf now fs (svc.rules.map fun r => addEx r (axs r))
        = cleanupRules svc asOf now fs svc.rules
    exact cleanupRules_extendEx svc axs asOf now hax svc.rules fs
  · rw [upcomingAlerts, upcomingAlerts, registrations_extendEx svc axs asOf w fs hax]

/-- C9: every Alert returned by `upcoming_alerts` has a non-negative
`daysUntilDeletion`: each contributing entry passed the `due_dt < as_of_dt`
skip, so the ceiling of (midnight of its due date minus `asOf`) in days is
never negative, and the minimum over the group is therefore non-negative. -/
theorem C9_days_nonneg (svc : Service) (asOf w : Int) (fs : FS) (d : Int)
    (alerts : List Alert) (a : Alert)
    (hd : lookupDate (upcomingAlerts svc asOf w fs) d = some alerts)
    (ha : a ∈ alerts) : 0 ≤ a.daysUntilDeletion := by
  obtain ⟨folders, _, rfl, _, hgroups⟩ := alerts_structure svc asOf w fs d alerts hd
  obtain ⟨fo, hfo_mem, rfl⟩ := List.mem_map.mp ha
  show 0 ≤ minDays asOf (sortByB fdLe fo.2)
  apply minDays_nonneg
  intro fd hfd
  have hfd2 : fd ∈ fo.2 := (mem_sortByB _ _ _).mp hfd
  rw [hgroups fo hfo_mem] at hfd2
  obtain ⟨due, hdue, hfd3⟩ := groupRegs_due svc asOf w fs d fo.1 fd hfd2
  have hfd4 : fd = (fd.1, dateOf due) := by rw [← hfd3]
  rw [hfd4]
  exact dayCount_nonneg asOf due hdue fd.1

/-- Witness for C9 at the two-file example service. -/
theorem C9_witness :
    0 ≤ (Alert.mk ["root"] [["a.txt"], ["b.txt"]] 5 10).daysUntilDeletion :=
  C9_days_nonneg c4Svc 0 10 c4Fs 5 [Alert.mk ["root"] [["a.txt"], ["b.txt"]] 5 10]
    (Alert.mk ["root"] [["a.txt"], ["b.txt"]] 5 10) (by decide)
    (List.mem_singleton.mpr rfl)

/-- C4: for every `(date, folder)` group, the returned mapping carries
exactly one Alert: the alerts of that date contain at most one entry for
the folder; when the group is non-empty there is exactly one, its `files`
are a permutation of the group's relative paths sorted lexicographically by
posix form, and its `daysUntilDeletion` is the minimum of the group's
ceiling day counts; when the group is empty there is none — so two
distinct files of one folder with the same alert date are merged into one
Alert with the smaller day count. -/
theorem C4_alert_grouping (svc : Service) (asOf w : Int) (fs : FS) (d : Int)
    (f : AbsPath) (alerts : List Alert)
    (hd : lookupDate (upcomingAlerts svc asOf w fs) d = some alerts) :
    (alerts.filter (fun a => decide (a.folder = f))).length ≤ 1
    ∧ (groupRegs (registrations svc asOf w fs) d f ≠ [] →
        ∃ a, alerts.filter (fun a => decide (a.folder = f)) = [a]
          ∧ a.files.Perm ((groupRegs (registrations svc asOf w fs) d f).map Prod.fst)
          ∧ a.files.Pairwise (fun p q => charListLe (posix p).toList (posix q).toList = true)
          ∧ (∀ fd ∈ groupRegs (registrations svc asOf w fs) d f,
              a.daysUntilDeletion ≤ dayCount asOf fd)
          ∧ (∃ fd ∈ groupRegs (registrations svc asOf w fs) d f,
              a.daysUntilDeletion = dayCount asOf fd)
          ∧ a.alertDate = d ∧ a.folder = f)
    ∧ (groupRegs (registrations svc asOf w fs) d f = [] →
        alerts.filter (fun a => decide (a.folder = f)) = []) := by
  obtain ⟨folders, hlook, rfl, hnodup, _⟩ := alerts_structure svc asOf w fs d alerts hd
  have hfilter : (folders.map (fun fo => mkAlert asOf d fo.1 fo.2)).filter
        (fun a => decide (a.folder = f))
      = (folders.filter (fun fo => decide (fo.1 = f))).map
          (fun fo => mkAlert asOf d fo.1 fo.2) := by
    rw [List.filter_map]
    rfl
  have hG : groupRegs (registrations svc asOf w fs) d f
      = (lookupFolder folders f).getD [] := by
    rw [← lookupGroup_buildSchedule, lookupGroup, hlook]
  rw [hfilter, filter_key_singleton folders f hnodup]
  rcases hlf : lookupFolder folders f with _ | l
  · rw [hlf] at hG
    refine ⟨by simp, ?_, ?_⟩
    · intro hne
      exact absurd hG hne
    · intro _
      rfl
  · rw [hlf] at hG
    have hGl : groupRegs (registrations svc asOf w fs) d f = l := hG
    have hany : (registrations svc asOf w fs).any
        (fun r => decide (r.1 = d) && decide (r.2.1 = f)) = true := by
      rw [← hasGroup_buildSchedule, hasGroup, hlook]
      show (lookupFolder folders f).isSome = true
      rw [hlf]
      rfl
    have hlne : l ≠ [] := by
      intro hnil
      rw [groupRegs] at hGl
      have hempty : (registrations svc asOf w fs).filter
          (fun r => decide (r.1 = d) && decide (r.2.1 = f)) = [] := by
        rcases hh : (registrations svc asOf w fs).filter
            (fun r => decide (r.1 = d) && decide (r.2.1 = f)) with _ | ⟨x, xs⟩
        · exact hh
        · rw [hh] at hGl
          rw [hnil] at hGl
          exact absurd hGl (by simp)
      obtain ⟨r0, hr0, hp0⟩ := List.any_eq_true.mp hany
      rw [List.filter_eq_nil_iff] at hempty
      exact hempty r0 hr0 hp0
    refine ⟨by simp, ?_, ?_⟩
    · intro _
      refine ⟨mkAlert asOf d f l, by simp, ?_, ?_, ?_, ?_, rfl, rfl⟩
      · show ((sortByB fdLe l).map Prod.fst).Perm _
        rw [hGl]
        exact (sortByB_perm fdLe l).map Prod.fst
      · show ((sortByB fdLe l).map Prod.fst).Pairwise _
        exact (sortByB_pairwise fdLe_trans fdLe_total l).map Prod.fst (fun a b h => h)
      · intro fd hfd
        rw [hGl] at hfd
        exact minDays_le asOf (sortByB fdLe l) fd ((mem_sortByB fdLe l fd).mpr hfd)
      · have hsne : sortByB fdLe l ≠ [] := by
          intro hnil
          have := (sortByB_perm fdLe l).length_eq
          rw [hnil] at this
          exact hlne (List.length_eq_zero.mp this.symm)
        obtain ⟨fd, hfd, heq⟩ := minDays_mem asOf (sortByB fdLe l) hsne
        exact ⟨fd, by rw [hGl]; exact (mem_sortByB fdLe l fd).mp hfd, heq⟩
    · intro hnil
      exact absurd (hGl.symm.trans hnil) hlne

/-- Witness for C4: in the two-file example both files alert on date 5 for
folder `root` and are merged into the single Alert with the smaller day
count. -/
theorem C4_witness :
    ([Alert.mk ["root"] [["a.txt"], ["b.txt"]] 5 10].filter
      (fun a => decide (a.folder = (["root"] : AbsPath)))).length ≤ 1 :=
  (C4_alert_grouping c4Svc 0 10 c4Fs 5 ["root"]
    [Alert.mk ["root"] [["a.txt"], ["b.txt"]] 5 10] (by decide)).1

/-- C5: `upcoming_alerts` registers an entry under an alert date and folder
exactly when the entry is a non-exempt descendant of an active rule whose
due instant `lastModified + retention` does not strictly precede `asOf`,
and some effective lead-time `L` puts `(dueInstant - L).date()` inside the
inclusive window `[asOf.date(), asOf.date() + windowDays]`; entries whose
due instant strictly precedes `asOf` are never registered.  Concretely, a
rule with retention 10 days and lead-times 2 and 5 days, evaluated at the
file's modification instant with a 10-day window, fires on exactly the
dates `asOf + 8d` and `asOf + 5d`. -/
theorem C5_registration_characterization :
    (∀ (svc : Service) (asOf w : Int) (fs : FS) (t : Reg),
      t ∈ registrations svc asOf w fs ↔
        ∃ rule ∈ svc.rules,
          ruleActive fs rule = true ∧
            ∃ e,
              (e ∈ fs.entries ∧ strictUnder rule.path e.path) ∧
                isExempt rule (relOf rule.path e.path) = false ∧
                  asOf ≤ e.mtime + (effectivePolicy rule (relOf rule.path e.path)).1 ∧
                    ∃ L ∈ effectiveNotify rule (relOf rule.path e.path),
                      (dateOf asOf
                          ≤ dateOf (e.mtime
                              + (effectivePolicy rule (relOf rule.path e.path)).1 - L) ∧
                        dateOf (e.mtime
                            + (effectivePolicy rule (relOf rule.path e.path)).1 - L)
                          ≤ dateOf asOf + w) ∧
                      (dateOf (e.mtime
                          + (effectivePolicy rule (relOf rule.path e.path)).1 - L),
                        rule.path, relOf rule.path e.path,
                        dateOf (e.mtime
                          + (effectivePolicy rule (relOf rule.path e.path)).1)) = t)
    ∧ ((upcomingAlerts exSvc 0 10 exFs).map Prod.fst) = [8, 5] := by
  constructor
  · intro svc asOf w fs t
    rw [mem_registrations]
    simp only [not_lt]
  · decide

/-- C1: for every rule and filesystem state, `cleanup` disposes the rule's
entries in non-increasing order of relative-path component count: the rule's
disposal loop is exactly a fold over `disposalSeq`, whose depths are
pairwise non-increasing, so any disposed strict descendant occurs strictly
before its disposed ancestor; in particular every stale, non-exempt strict
descendant of a disposed directory is itself disposed at an earlier
position, so a due directory is never removed while a due child is still
awaiting disposal (the "directory not empty" situation cannot arise). -/
theorem C1_cleanup_deepest_first (svc : Service) (rule : FolderRule) (asOf now : Int)
    (fs : FS) :
    (ruleActive fs rule = true →
      cleanupRule svc rule asOf now fs
        = runDisposals svc rule now fs (disposalSeq rule asOf fs))
    ∧ (disposalSeq rule asOf fs).Pairwise
        (fun a b => b.2.1.length ≤ a.2.1.length)
    ∧ (∀ i j, (hi : i < (disposalSeq rule asOf fs).length) →
        (hj : j < (disposalSeq rule asOf fs).length) →
        leads ((disposalSeq rule asOf fs).get ⟨j, hj⟩).2.1
            ((disposalSeq rule asOf fs).get ⟨i, hi⟩).2.1 →
        ((disposalSeq rule asOf fs).get ⟨i, hi⟩).2.1
            ≠ ((disposalSeq rule asOf fs).get ⟨j, hj⟩).2.1 →
        i < j)
    ∧ (∀ j, (hj : j < (disposalSeq rule asOf fs).length) →
        ∀ t ∈ collect fs rule, shouldDispose rule asOf t = true →
        leads ((disposalSeq rule asOf fs).get ⟨j, hj⟩).2.1 t.2.1 →
        t.2.1 ≠ ((disposalSeq rule asOf fs).get ⟨j, hj⟩).2.1 →
        ∃ i, ∃ hi : i < (disposalSeq rule asOf fs).length,
          i < j ∧ (disposalSeq rule asOf fs).get ⟨i, hi⟩ = t) := by
  have hpw : (disposalSeq rule asOf fs).Pairwise
      (fun a b => b.2.1.length ≤ a.2.1.length) := by
    have h1 : (sortByB depthGe (collect fs rule)).Pairwise
        (fun a b => depthGe a b = true) :=
      sortByB_pairwise depthGe_trans depthGe_total (collect fs rule)
    have h2 := h1.filter (shouldDispose rule asOf)
    exact h2.imp (fun h => by simpa [depthGe] using h)
  have hdesc : ∀ i j, (hi : i < (disposalSeq rule asOf fs).length) →
      (hj : j < (disposalSeq rule asOf fs).length) →
      leads ((disposalSeq rule asOf fs).get ⟨j, hj⟩).2.1
          ((disposalSeq rule asOf fs).get ⟨i, hi⟩).2.1 →
      ((disposalSeq rule asOf fs).get ⟨i, hi⟩).2.1
          ≠ ((disposalSeq rule asOf fs).get ⟨j, hj⟩).2.1 →
      i < j := by
    intro i j hi hj hlead hne
    have hstrict : ((disposalSeq rule asOf fs).get ⟨j, hj⟩).2.1.length
        < ((disposalSeq rule asOf fs).get ⟨i, hi⟩).2.1.length :=
      leads_strict_length hlead (fun hh => hne hh.symm)
    rcases Nat.lt_or_ge i j with h | h
    · exact h
    · exfalso
      rcases Nat.eq_or_lt_of_le h with rfl | h
      · exact hne rfl
      · have := List.pairwise_iff_get.mp hpw ⟨j, hj⟩ ⟨i, hi⟩ h
        omega
  refine ⟨?_, hpw, hdesc, ?_⟩
  · intro hact
    rw [cleanupRule, if_pos hact, runEntries_eq_runDisposals]
    rfl
  · intro j hj t hmem hshould hlead hne
    have htseq : t ∈ disposalSeq rule asOf fs := by
      rw [disposalSeq, List.mem_filter]
      exact ⟨(mem_sortByB depthGe (collect fs rule) t).mpr hmem, hshould⟩
    obtain ⟨⟨i, hi⟩, hget⟩ := List.mem_iff_get.mp htseq
    refine ⟨i, hi, ?_, hget⟩
    apply hdesc i j hi hj
    · rw [hget]
      exact hlead
    · rw [hget]
      exact hne

/-- C8: managed-trash disposal computes
`target = trashRoot / ruleRootName / relativePath`, creates every parent
directory, appends a timestamp suffix exactly when the target already
exists, and returns the final target; consequently two disposals of
entries with the same relative path, in sequence into an initially empty
trash root, return the plain target and then the suffixed target — two
distinct paths — and the second move leaves the first moved entry in
place. -/
theorem C8_trash_collision :
    (∀ (fs : FS) (now : Int) (td : AbsPath) (rule : FolderRule) (src : AbsPath)
        (rel : RelPath),
      (moveToTrash fs now td rule src rel).2
        = (if pathExists (mkdirs fs now (trashBase td rule rel).dropLast)
              (trashBase td rule rel) = true
           then stamped (trashBase td rule rel) now else trashBase td rule rel))
    ∧ (∀ (fs : FS) (now : Int) (dir : AbsPath) (k : Nat), k < dir.length →
        pathExists (mkdirs fs now dir) (dir.take (k + 1)) = true)
    ∧ (∀ (fs : FS) (now : Int) (td : AbsPath) (rule : FolderRule)
        (src1 src2 : AbsPath) (rel : RelPath) (m1 : Int) (d1 : Bool),
        (∀ e ∈ fs.entries, ¬ leads td e.path) →
        FSEntry.mk src1 m1 d1 ∈ fs.entries →
        incomparable src2 td →
        (moveToTrash fs now td rule src1 rel).2 = trashBase td rule rel
        ∧ (moveToTrash (moveToTrash fs now td rule src1 rel).1 now td rule src2 rel).2
            = stamped (trashBase td rule rel) now
        ∧ (moveToTrash (moveToTrash fs now td rule src1 rel).1 now td rule src2 rel).2
            ≠ (moveToTrash fs now td rule src1 rel).2
        ∧ FSEntry.mk (trashBase td rule rel) m1 d1
            ∈ (moveToTrash (moveToTrash fs now td rule src1 rel).1
                now td rule src2 rel).1.entries) := by
  refine ⟨?_, fun fs now dir k h => mkdirs_exists_prefix fs now dir k h, ?_⟩
  · intro fs now td rule src rel
    rw [moveToTrash_eq]
  · intro fs now td rule src1 src2 rel m1 d1 h0 h1 hic2
    have hfalse := pathExists_mkdirs_trashBase_false fs now td rule rel h0
    have e1 : (moveToTrash fs now td rule src1 rel).2 = trashBase td rule rel := by
      rw [moveToTrash_eq, hfalse]
      simp
    have efs1 : (moveToTrash fs now td rule src1 rel).1
        = subtreeMove (mkdirs fs now (trashBase td rule rel).dropLast) src1
            (trashBase td rule rel) := by
      rw [moveToTrash_eq, hfalse]
      simp
    have hbase_mem : FSEntry.mk (trashBase td rule rel) m1 d1
        ∈ (moveToTrash fs now td rule src1 rel).1.entries := by
      rw [efs1]
      exact subtreeMove_mem_root (mkdirs_mem h1)
    have htrue : pathExists
        (mkdirs (moveToTrash fs now td rule src1 rel).1 now
          (trashBase td rule rel).dropLast) (trashBase td rule rel) = true := by
      rw [pathExists]
      apply List.any_eq_true.mpr
      exact ⟨FSEntry.mk (trashBase td rule rel) m1 d1, mkdirs_mem hbase_mem, by simp⟩
    have e2 : (moveToTrash (moveToTrash fs now td rule src1 rel).1 now td rule src2 rel).2
        = stamped (trashBase td rule rel) now := by
      rw [moveToTrash_eq, htrue]
      simp
    have hnotsub : ¬ leads src2 (trashBase td rule rel) := by
      intro hh
      rcases leads_comparable hh (leads_td_trashBase td rule rel) with hcc | hcc
      · exact hic2.1 hcc
      · exact hic2.2 hcc
    refine ⟨e1, e2, ?_, ?_⟩
    · rw [e1, e2]
      exact stamped_ne_base (trashBase_ne_nil td rule rel) now
    · have efs2 : (moveToTrash (moveToTrash fs now td rule src1 rel).1
          now td rule src2 rel).1
          = subtreeMove
              (mkdirs (moveToTrash fs now td rule src1 rel).1 now
                (trashBase td rule rel).dropLast) src2
              (stamped (trashBase td rule rel) now) := by
        rw [moveToTrash_eq, htrue]
        simp
      rw [efs2]
      exact subtreeMove_mem_untouched (mkdirs_mem hbase_mem) hnotsub

/-- Witness for C8: two files named `x.txt` under roots `a/data` and
`b/data` (both rule-root name `data`) moved in sequence into the empty
trash `T`: the first lands at the plain target, the second at the
timestamp-suffixed one, and the first entry survives. -/
theorem C8_witness :
    (moveToTrash c8Fs 7 ["T"] c8Rule ["a", "data", "x.txt"] ["x.txt"]).2
        = trashBase ["T"] c8Rule ["x.txt"]
      ∧ (moveToTrash (moveToTrash c8Fs 7 ["T"] c8Rule ["a", "data", "x.txt"] ["x.txt"]).1
            7 ["T"] c8Rule ["b", "data", "x.txt"] ["x.txt"]).2
          = stamped (trashBase ["T"] c8Rule ["x.txt"]) 7
      ∧ (moveToTrash (moveToTrash c8Fs 7 ["T"] c8Rule ["a", "data", "x.txt"] ["x.txt"]).1
            7 ["T"] c8Rule ["b", "data", "x.txt"] ["x.txt"]).2
          ≠ (moveToTrash c8Fs 7 ["T"] c8Rule ["a", "data", "x.txt"] ["x.txt"]).2
      ∧ FSEntry.mk (trashBase ["T"] c8Rule ["x.txt"]) 0 false
          ∈ (moveToTrash (moveToTrash c8Fs 7 ["T"] c8Rule ["a", "data", "x.txt"] ["x.txt"]).1
              7 ["T"] c8Rule ["b", "data", "x.txt"] ["x.txt"]).1.entries :=
  C8_trash_collision.2.2 c8Fs 7 ["T"] c8Rule ["a", "data", "x.txt"] ["b", "data", "x.txt"]
    ["x.txt"] 0 false (by decide) (by decide) (by decide)

/-- Witness for C1: at a concrete stale directory with a stale child, the
rule's cleanup loop equals the fold over its disposal sequence. -/
theorem C1_witness :
    cleanupRule c1Svc c1Rule 864000 0 c1Fs
      = runDisposals c1Svc c1Rule 0 c1Fs (disposalSeq c1Rule 864000 c1Fs) :=
  (C1_cleanup_deepest_first c1Svc c1Rule 864000 0 c1Fs).1 (by decide)
theorem C10_witness :
    cleanup (extendEx exSvc fun _ => [⟨true, ["x"]⟩]) 950400 0 exFs
      = cleanup exSvc 950400 0 exFs :=
  (C10_absolute_exemptions_inert exSvc 950400 10 0 exFs (fun _ => [⟨true, ["x"]⟩])
    (fun _ p hp => by rw [List.mem_singleton.mp hp])).2.1

/-- Counterexample to C7 as stated: with the managed trash root `data/trash`
lying inside the rule root `data`, the first cleanup moves the stale file
into the trash area, the second cleanup finds the relocated copy (it kept
its modification time) below the rule root again and disposes it once more,
so the second call's result list is not empty although the filesystem was
not touched between the calls. -/
theorem C7_counterexample :
    (cleanup cxSvc 864000 864000 (cleanup cxSvc 864000 864000 cxFs).1).2 ≠ [] := by
  decide

/-- C7 (amended): cleanup is idempotent over an unchanged filesystem
provided every trash root (the system trash and the managed trash directory,
when configured) is path-incomparable with every rule root: for every such
service, every cutoff instant and every filesystem, running cleanup a second
time on the first run's resulting filesystem returns an empty list. -/
theorem C7_cleanup_idempotent (svc : Service) (asOf now now' : Int) (fs : FS)
    (hts : trashSafe svc) :
    (cleanup svc asOf now' (cleanup svc asOf now fs).1).2 = [] := by
  rw [cleanup, cleanup]
  have hret := cleanupRules_retained svc asOf now hts svc.rules fs (fun r hr => hr)
  have hskip := cleanupRules_skip svc asOf now' svc.rules
      (cleanupRules svc asOf now fs svc.rules).1 hret
  rw [hskip]

/-- Witness for C7: with the trash root `T` incomparable with the rule root
`data`, a second cleanup over the first one's result reports nothing. -/
theorem C7_witness :
    (cleanup w7Svc 864000 5 (cleanup w7Svc 864000 3 cxFs).1).2 = [] :=
  C7_cleanup_idempotent w7Svc 864000 3 5 cxFs (by unfold trashSafe; decide)

end ChronoSweep
